import Mathlib

/-!
Shallow embedding of the SAF-AR timed-reveal sequencer.

The source has two main variants of the same application:

* `src/unnamed/part_001` (and its near-copy inside `src/unnamed/part_002`):
  a `ModelManager` object holding three registries keyed by the asset path
  (`models`, `mixers`, `actions`), with `loadModel`, `showModel`, `hideModel`,
  `hideAllModels`, `resetModels`, `clearModels`, and cycle timers.
* `src/unnamed/part_002` (AR variant): an `initializeAR` routine that loads
  every enabled config entry with `visible:false`, plus closures
  `startAnimationSequence` / `stopAnimationSequence` over an
  `animationSequenceStarted` flag and a `timeoutIds` array.
* `src/js/main.js`: an older `ModelManager` whose `loadModel` early-returns
  the already-stored handle.

The embedding models wall-clock timers explicitly: a `Timer` is a pending
`setTimeout` with its absolute fire time and its callback.  `advanceTo t`
lets the clock reach `t`, firing every due timer in the JavaScript event-loop
order: non-decreasing fire time, ties broken by registration order (the timer
list is kept in registration order, and due timers are fired after a stable
insertion sort on the fire time).  `tick` is the per-frame
`ModelManager.updateAnimations(delta)` call: it advances every non-paused
animation action of every model, visible or not.

Animation actions (`THREE.AnimationAction`) are abstracted to the two fields
the program reads and writes: `paused` and the playback position `time`
(`action.reset()` zeroes the position, `action.play()` activates,
`mixer.update` advances non-paused actions).  All actions in this program are
configured `LoopOnce` + `clampWhenFinished` at creation and that
configuration is never changed, so it is not carried in the state.
Geometry data (position / rotation / scale), materials and lighting are
consumed by the renderer only and are not part of any claim, so they are not
carried in the state either.
-/

/-- One animation action: the `paused` flag and the playback position
(`action.time`).  Created paused at position 0 (`paused = true; play()`). -/
structure Act where
  paused : Bool
  time : Nat
deriving DecidableEq, Repr

/-- A registry entry of `ModelManager.models[path]` together with the
associated `ModelManager.actions[path]`: the scene-graph object's identity
(`objId`, a fresh number per fetch/decode, used to observe handle
replacement), its `visible` flag, the stored `options.delay`, the stored
`options.visible` (initial visibility from the config), and the animation
actions created for the asset's clips. -/
structure MEntry where
  objId : Nat
  visible : Bool
  delay : Nat
  optVisible : Bool
  acts : List Act
deriving DecidableEq, Repr

/-- A spotlight cylinder created next to a loaded model (`createSpotlightCylinder`
result): identified by the model path it accents, with its visibility and the
reveal delay recorded alongside it in the `spotlights` array. -/
structure Spot where
  path : String
  visible : Bool
  delay : Nat
deriving DecidableEq, Repr

/-- The callback of a pending `setTimeout`.

* `seqModel p` / `seqSpot p`: scheduled by `startAnimationSequence`
  (part_002); the callback body first checks `animationSequenceStarted`
  and is a no-op when the sequence was stopped.
* `mmShow p`: scheduled by `ModelManager.showModel` (part_001); the callback
  body re-reads `this.models[path]` with **no** existence check and no
  started-guard.
* `testSpot p`: the plain spotlight `setTimeout` of `loadTestModels`
  (part_001), which closes over the spotlight object directly. -/
inductive Cb where
  | seqModel (path : String)
  | seqSpot (path : String)
  | mmShow (path : String)
  | testSpot (path : String)
deriving DecidableEq, Repr

/-- A pending `setTimeout`: absolute fire time and callback. -/
structure Timer where
  fireAt : Nat
  cb : Cb
deriving DecidableEq, Repr

/-- The world state: current time, the `animationSequenceStarted` flag, the
model registry in insertion order (JavaScript object keys preserve insertion
order), the `spotlights` array, the pending timers in registration order,
the `cycleTimer` flag, a fetch/decode counter (observes how often a model
was actually loaded), the object ids attached to the scene/anchor group,
the error-message planes added by `displayErrorMessage`, and two ghost
histories: `log` records every reveal callback that actually executed its
body, `crashes` records every fired callback that dereferenced an absent
registry entry (a `TypeError` in the source). -/
structure World where
  now : Nat := 0
  started : Bool := false
  models : List (String × MEntry) := []
  spots : List Spot := []
  timers : List Timer := []
  cycleOn : Bool := false
  fetchCount : Nat := 0
  attached : List Nat := []
  errs : List String := []
  log : List Cb := []
  crashes : List String := []
deriving DecidableEq, Repr

/-- Registry lookup, `ModelManager.models[path]`. -/
def lookupModel (ms : List (String × MEntry)) (p : String) : Option MEntry :=
  match ms with
  | [] => none
  | (q, e) :: rest => if q = p then some e else lookupModel rest p

/-- Apply `f` to the entry stored at key `p` (mutation of `models[path]`). -/
def setModel (ms : List (String × MEntry)) (p : String) (f : MEntry → MEntry) :
    List (String × MEntry) :=
  ms.map fun q => if q.1 = p then (q.1, f q.2) else q

/-- `this.models[path] = entry`: JavaScript assignment to an object key keeps
the insertion position of an existing key and appends a new key. -/
def insertModel (ms : List (String × MEntry)) (p : String) (e : MEntry) :
    List (String × MEntry) :=
  if (lookupModel ms p).isSome then setModel ms p (fun _ => e) else ms ++ [(p, e)]

/-- Set the visibility of the spotlight for `p`. -/
def setSpotVisible (ss : List Spot) (p : String) (b : Bool) : List Spot :=
  ss.map fun s => if s.path = p then { s with visible := b } else s

/-- The effect of a reveal callback body on a registry entry:
`object.visible = true`, and for every action `reset(); play(); paused = false`
(position back to zero, playing). -/
def revealEntry (e : MEntry) : MEntry :=
  { e with visible := true, acts := e.acts.map fun _ => { paused := false, time := 0 } }

/-- `action.paused = true; action.reset()`: pause and zero the position. -/
def pauseResetActs (e : MEntry) : MEntry :=
  { e with acts := e.acts.map fun _ => { paused := true, time := 0 } }

/-- Execute one fired timer callback against the current world. -/
def fire (w : World) (t : Timer) : World :=
  match t.cb with
  | .seqModel p =>
    -- startAnimationSequence model callback: `if (!animationSequenceStarted) return;`
    if w.started then
      { w with models := setModel w.models p revealEntry, log := w.log ++ [t.cb] }
    else w
  | .seqSpot p =>
    -- startAnimationSequence spotlight callback, same guard.
    if w.started then
      { w with spots := setSpotVisible w.spots p true, log := w.log ++ [t.cb] }
    else w
  | .mmShow p =>
    -- showModel callback: re-reads `this.models[path]` with no check; if the
    -- registry was cleared meanwhile this is a TypeError on `undefined`.
    match lookupModel w.models p with
    | some _ => { w with models := setModel w.models p revealEntry, log := w.log ++ [t.cb] }
    | none => { w with crashes := w.crashes ++ [p] }
  | .testSpot p =>
    -- loadTestModels spotlight callback: closes over the spotlight object.
    { w with spots := setSpotVisible w.spots p true, log := w.log ++ [t.cb] }

/-- The due timers when the clock reaches `t`: every pending timer with
`fireAt ≤ t`, in JavaScript firing order (by fire time, stable for ties). -/
def dueTimers (t : Nat) (ts : List Timer) : List Timer :=
  (ts.filter fun tm => tm.fireAt ≤ t).insertionSort fun a b => a.fireAt ≤ b.fireAt

/-- Let the wall clock reach `t`: every due timer fires, in order. -/
def advanceTo (t : Nat) (w : World) : World :=
  if t < w.now then w
  else
    (dueTimers t w.timers).foldl fire
      { w with now := t, timers := w.timers.filter fun tm => ¬ tm.fireAt ≤ t }

/-- One frame tick, `ModelManager.updateAnimations(delta)`: every mixer
advances its non-paused actions, for every loaded model, visible or hidden. -/
def tick (d : Nat) (w : World) : World :=
  { w with models := w.models.map fun q =>
      (q.1, { q.2 with acts := q.2.acts.map fun a =>
        if a.paused then a else { a with time := a.time + d } }) }

/-- A step of pure time evolution: either the wall clock reaching an instant
(timers fire) or a render-frame tick (animation positions advance). -/
inductive Step where
  | adv (t : Nat)
  | frame (d : Nat)
deriving DecidableEq, Repr

/-- Run a list of time-evolution steps. -/
def runSteps (steps : List Step) (w : World) : World :=
  steps.foldl (fun acc s => match s with
    | .adv t => advanceTo t acc
    | .frame d => tick d acc) w

/-- One entry of the static configuration list `getModelConfigs()`, reduced
to the fields the sequencer logic reads (`path`, `delay`, `visible`,
`enabled`; the placement fields are consumed by the renderer only). -/
structure Config where
  path : String
  delay : Nat
  visible : Bool
  enabled : Bool
deriving DecidableEq, Repr

/-- ASCII lower-casing of one character: what `toLowerCase()` does on the
ASCII asset paths this program uses. -/
def asciiLower (c : Char) : Char :=
  if 65 ≤ c.toNat ∧ c.toNat ≤ 90 then Char.ofNat (c.toNat + 32) else c

/-- Does `sub` occur as a contiguous substring of `l`? -/
def listHasSub (sub : List Char) : List Char → Bool
  | [] => sub.isEmpty
  | c :: rest => sub.isPrefixOf (c :: rest) || listHasSub sub rest

/-- JavaScript's `String.prototype.includes`. -/
def strIncludes (s sub : String) : Bool := listHasSub sub.data s.data

/-! ## The AR variant (`src/unnamed/part_002`, `initializeAR` scope)

`initializeAR` loads every enabled config entry through
`ModelManager.loadModel` with `visible:false` ("Start invisible regardless of
config") and `delay:config.delay`, adds the object to the anchor group, and —
except for paths containing `"dis-ball"` — creates a hidden spotlight
cylinder recorded with the model's delay.  A load failure is caught per
entry and surfaced via `displayErrorMessage`.  In this AR variant
`ModelManager.showModel` begins with `if (!testMode && mindarThree) return;`,
so the `delay > 0` branch at the end of `loadModel` schedules nothing: no
timer exists before `startAnimationSequence` runs.  The number of animation
clips decoded from an asset file is abstracted as `clips : String → Nat`,
and the set of unreachable/undecodable assets as `fail : List String`. -/

/-- The body of the `for (const config of modelConfigs)` load loop of
`initializeAR` (part_002 lines 888-930). -/
def seqLoadStep (clips : String → Nat) (fail : List String) (w : World) (c : Config) :
    World :=
  if ¬ c.enabled then w
  else if c.path ∈ fail then { w with errs := w.errs ++ [c.path] }
  else
    let objId := w.fetchCount + 1
    let e : MEntry :=
      { objId := objId, visible := false, delay := c.delay, optVisible := false,
        acts := List.replicate (clips c.path) { paused := true, time := 0 } }
    let w1 : World :=
      { w with fetchCount := objId,
               models := insertModel w.models c.path e,
               attached := w.attached ++ [objId] }
    if strIncludes c.path "dis-ball" then w1
    else { w1 with spots := w1.spots ++ [{ path := c.path, visible := false, delay := c.delay }] }

/-- The whole load loop of `initializeAR`, from a fresh session. -/
def seqInitAR (clips : String → Nat) (fail : List String) (cfgs : List Config) : World :=
  cfgs.foldl (seqLoadStep clips fail) {}

/-- `action.paused = true; action.reset()` over a whole entry plus
`model.object.visible = false`: the per-model body of the hide loops in
`startAnimationSequence` and `stopAnimationSequence`. -/
def hideResetEntry (e : MEntry) : MEntry :=
  { e with visible := false, acts := e.acts.map fun _ => { paused := true, time := 0 } }

/-- `startAnimationSequence` (part_002 lines 938-1012): no-op when already
started; otherwise set the flag, clear the recorded timeouts (every pending
timer of this variant was recorded in `timeoutIds`), hide and reset every
model and spotlight, then schedule one reveal timeout per loaded model at
`now + options.delay` followed by one per spotlight at `now + delay`. -/
def startSeq (w : World) : World :=
  if w.started then w
  else
    let w1 : World :=
      { w with started := true, timers := [],
               models := w.models.map fun q => (q.1, hideResetEntry q.2),
               spots := w.spots.map fun s => { s with visible := false } }
    { w1 with timers :=
        (w1.models.map fun q => Timer.mk (w1.now + q.2.delay) (Cb.seqModel q.1)) ++
        (w1.spots.map fun s => Timer.mk (w1.now + s.delay) (Cb.seqSpot s.path)) }

/-- `stopAnimationSequence` (part_002 lines 1015-1046): no-op when not
started; otherwise drop the flag, `clearTimeout` every recorded timeout,
hide every model (pausing and resetting its actions) and every spotlight. -/
def stopSeq (w : World) : World :=
  if ¬ w.started then w
  else
    { w with started := false, timers := [],
             models := w.models.map fun q => (q.1, hideResetEntry q.2),
             spots := w.spots.map fun s => { s with visible := false } }

/-! ## The test-mode variant (`src/unnamed/part_001`, `ModelManager`) -/

/-- `ModelManager.showModel(path, delay)` (part_001 lines 332-359): warn and
return when the path is not loaded, otherwise schedule a `setTimeout` whose
body reveals the model and resets + plays its actions.  The existence check
happens at scheduling time only; the callback re-reads `this.models[path]`
without a check. -/
def showModelP1 (path : String) (delay : Nat) (w : World) : World :=
  match lookupModel w.models path with
  | none => w
  | some _ => { w with timers := w.timers ++ [{ fireAt := w.now + delay, cb := Cb.mmShow path }] }

/-- `path.toLowerCase()` ends with a recognized model extension
(part_001 lines 159-180). -/
def supportedFormat (path : String) : Bool :=
  let low := path.data.map asciiLower
  (List.isSuffixOf ".fbx".data low || List.isSuffixOf ".glb".data low
    || List.isSuffixOf ".gltf".data low)

/-- The load options of `ModelManager.loadModel`, reduced to the two fields
the sequencing logic reads. -/
structure LoadOpts where
  visible : Bool
  delay : Nat
deriving DecidableEq, Repr

/-- `ModelManager.loadModel(path, options)` (part_001 lines 125-278).  Throws
when the resource is unreachable (`path ∈ fail` stands for the failed HEAD
check or loader error) or the extension is unrecognized.  Otherwise a fresh
object is decoded (`fetchCount` increases, the stored handle gets a fresh
`objId`) — there is **no** check for an already-loaded path, so an existing
entry is replaced.  Actions are created `paused = true; play()` at position
zero.  Finally, `if (modelOptions.delay > 0 && !modelOptions.visible)` the
model is scheduled via `showModel(path, delay)`. -/
def loadModelP1 (clips : String → Nat) (fail : List String) (path : String)
    (opts : LoadOpts) (w : World) : Except String World :=
  if path ∈ fail then .error path
  else if ¬ supportedFormat path then .error path
  else
    let objId := w.fetchCount + 1
    let e : MEntry :=
      { objId := objId, visible := opts.visible, delay := opts.delay,
        optVisible := opts.visible,
        acts := List.replicate (clips path) { paused := true, time := 0 } }
    let w1 : World := { w with fetchCount := objId, models := insertModel w.models path e }
    .ok (if opts.delay > 0 ∧ opts.visible = false then showModelP1 path opts.delay w1 else w1)

/-- The effect of `hideModel` on a registry entry: `object.visible = false`
and `action.paused = true` for every action, positions untouched. -/
def hideEntry (e : MEntry) : MEntry :=
  { e with visible := false, acts := e.acts.map fun a => { a with paused := true } }

/-- `ModelManager.hideModel(path)` (part_001 lines 362-379): hide the object
and pause every action at its current position. -/
def hideModelP1 (path : String) (w : World) : World :=
  match lookupModel w.models path with
  | none => w
  | some _ => { w with models := setModel w.models path hideEntry }

/-- `ModelManager.hideAllModels()` (part_001 lines 382-387):
`Object.keys(this.models).forEach(path => this.hideModel(path))`. -/
def hideAllModelsP1 (w : World) : World :=
  w.models.foldl (fun acc q => hideModelP1 q.1 acc) w

/-- The action-recreation step of `resetModels`: when a mixer exists (the
asset had animations), a fresh mixer is built and every action is recreated
`LoopOnce`/`clampWhenFinished`, `paused = true; reset(); play()`. -/
def recreateActs (e : MEntry) : MEntry :=
  if e.acts.isEmpty then e
  else { e with acts := e.acts.map fun _ => { paused := true, time := 0 } }

/-- `ModelManager.resetModels()` (part_001 lines 390-445): hide all models,
recreate all actions from scratch, then `showModel(path, options.delay)` for
every loaded path.  Note: nothing cancels reveal timeouts that are still
pending from an earlier `showModel`. -/
def resetModelsP1 (w : World) : World :=
  let w1 := hideAllModelsP1 w
  let w2 : World := { w1 with models := w1.models.map fun q => (q.1, recreateActs q.2) }
  w2.models.foldl (fun acc (q : String × MEntry) => showModelP1 q.1 q.2.delay acc) w2

/-- `ModelManager.clearModels()` (part_001 lines 472-493): stop the reset
cycle, drop the mixers, the actions and the models.  Pending `showModel`
timeouts are **not** cancelled and scene-graph nodes are **not** detached. -/
def clearModelsP1 (w : World) : World :=
  { w with cycleOn := false, models := [] }

/-- The body of the `for (const config of modelConfigs)` loop of
`loadTestModels` (part_001 lines 693-740): a failed load is caught per entry
and surfaced via `displayErrorMessage`; a loaded model is added to the scene
and — except for `"dis-ball"` paths — gets a spotlight recorded with delay
`config.delay + 500`. -/
def loadTestStep (clips : String → Nat) (fail : List String) (w : World) (c : Config) :
    World :=
  if ¬ c.enabled then w
  else
    match loadModelP1 clips fail c.path { visible := c.visible, delay := c.delay } w with
    | .error _ => { w with errs := w.errs ++ [c.path] }
    | .ok w1 =>
      let w2 : World := { w1 with attached := w1.attached ++ [w1.fetchCount] }
      if strIncludes c.path "dis-ball" then w2
      else { w2 with spots := w2.spots ++
              [{ path := c.path, visible := false, delay := c.delay + 500 }] }

/-- `loadTestModels` (part_001 lines 682-777) from a fresh session: run the
load loop, then schedule one spotlight `setTimeout` per created spotlight,
then `startResetCycle()`. -/
def loadTestModels (clips : String → Nat) (fail : List String) (cfgs : List Config) :
    World :=
  let w := cfgs.foldl (loadTestStep clips fail) {}
  let w1 : World :=
    { w with timers := w.timers ++
        w.spots.map fun s => Timer.mk (w.now + s.delay) (Cb.testSpot s.path) }
  { w1 with cycleOn := true }

/-! ## The `src/js/main.js` variant -/

/-- `ModelManager.loadModel` of `src/js/main.js` (lines 99-270): after
computing the config it checks `if (this.models[path])` and resolves with
the existing handle, performing no fetch and storing nothing.  Otherwise it
decodes a fresh object; only the first animation clip gets an action, and
that action is playing from the start (`action.play()`, never paused). -/
def loadModelMain (clips : String → Nat) (fail : List String) (path : String)
    (opts : LoadOpts) (w : World) : Except String (World × MEntry) :=
  match lookupModel w.models path with
  | some e => .ok (w, e)
  | none =>
    if path ∈ fail then .error path
    else
      let objId := w.fetchCount + 1
      let e : MEntry :=
        { objId := objId, visible := opts.visible, delay := opts.delay,
          optVisible := opts.visible,
          acts := if clips path = 0 then [] else [{ paused := false, time := 0 }] }
      .ok ({ w with fetchCount := objId, models := insertModel w.models path e }, e)

/-- `ModelManager.clearModels` of `src/js/main.js` (lines 358-371): detach
every stored object from its parent, then drop the registries.  Pending
`showModel` timeouts are not cancelled here either. -/
def clearModelsMain (w : World) : World :=
  { w with models := [],
           attached := w.attached.filter fun i => w.models.all fun q => q.2.objId ≠ i }

/-! ## Spec-modelled sequencer transitions (for the `restart` refinement)

The spec (§4.3) defines `restart()` as `stop()` immediately followed by
`start()`.  `part_001` has no stop/start pair on the `ModelManager` world —
`resetModels` is the restart — so the comparison side is modelled from the
spec's words. -/

/-- Modelled from the spec: `stop()` — "Cancels every pending callback (no
reveal fires after cancellation). Calls `Controller.hide` for every asset in
the Registry" — where `hide` "sets visibility false; pauses all clips at
their current position". -/
def specStop (w : World) : World :=
  { w with timers := [],
           models := w.models.map fun q => (q.1, hideEntry q.2) }

/-- Modelled from the spec: `start()` — "For every enabled RevealEntry,
schedules a one-shot callback firing at `start time + entry.delay` that
calls `Controller.show(entry.asset)`"; "entries with `initialVisibility=true`
are shown immediately at `start()` and excluded from delayed scheduling".
The registry holds exactly the loaded enabled entries.  The scheduled
callback is the controller's show (the spec's still-Running guard never
triggers in the executions compared here, since no further `stop()`
occurs between the compared runs). -/
def specStart (w : World) : World :=
  { w with models := w.models.map fun q =>
             if q.2.optVisible then (q.1, revealEntry q.2) else q,
           timers := w.timers ++
             (w.models.filter fun q => ¬ q.2.optVisible).map fun q =>
               Timer.mk (w.now + q.2.delay) (Cb.mmShow q.1) }

/-! ## Registry lemmas -/

/-- The keys of the model registry, in insertion order. -/
def keysOf (ms : List (String × MEntry)) : List String := ms.map Prod.fst

lemma keysOf_nil : keysOf [] = [] := rfl

lemma keysOf_cons (q : String × MEntry) (ms : List (String × MEntry)) :
    keysOf (q :: ms) = q.1 :: keysOf ms := rfl

lemma lookupModel_cons (s : String) (e : MEntry) (rest : List (String × MEntry))
    (p : String) :
    lookupModel ((s, e) :: rest) p = if s = p then some e else lookupModel rest p := rfl

lemma setModel_nil (p : String) (f : MEntry → MEntry) : setModel [] p f = [] := rfl

lemma setModel_cons (s : String) (e : MEntry) (rest : List (String × MEntry))
    (p : String) (f : MEntry → MEntry) :
    setModel ((s, e) :: rest) p f =
      (if s = p then (s, f e) else (s, e)) :: setModel rest p f := by
  by_cases h : s = p <;> simp [setModel, h]

lemma lookupModel_eq_none_iff (ms : List (String × MEntry)) (p : String) :
    lookupModel ms p = none ↔ p ∉ keysOf ms := by
  induction ms with
  | nil => simp [lookupModel, keysOf]
  | cons q rest ih =>
    obtain ⟨s, e⟩ := q
    by_cases h : s = p
    · subst h
      simp [lookupModel_cons, keysOf]
    · simp [lookupModel_cons, keysOf, h, ih, eq_comm]
      intro hne
      exact fun hc => h hc.symm

lemma lookupModel_isSome_of_mem {ms : List (String × MEntry)} {p : String} {e : MEntry}
    (h : (p, e) ∈ ms) : (lookupModel ms p).isSome := by
  induction ms with
  | nil => simp at h
  | cons q rest ih =>
    obtain ⟨s, e2⟩ := q
    rcases List.mem_cons.mp h with h1 | h1
    · obtain ⟨hs, -⟩ := Prod.mk.injEq .. |>.mp h1
      subst hs
      simp [lookupModel_cons]
    · by_cases hq : s = p <;> simp [lookupModel_cons, hq, ih h1]

lemma lookupModel_append (ms₁ ms₂ : List (String × MEntry)) (p : String) :
    lookupModel (ms₁ ++ ms₂) p =
      match lookupModel ms₁ p with
      | some e => some e
      | none => lookupModel ms₂ p := by
  induction ms₁ with
  | nil => simp [lookupModel]
  | cons q rest ih =>
    obtain ⟨s, e⟩ := q
    by_cases h : s = p <;> simp [lookupModel_cons, h, ih]

lemma lookupModel_setModel_self (ms : List (String × MEntry)) (p : String)
    (f : MEntry → MEntry) :
    lookupModel (setModel ms p f) p = (lookupModel ms p).map f := by
  induction ms with
  | nil => simp [lookupModel, setModel]
  | cons q rest ih =>
    obtain ⟨s, e⟩ := q
    by_cases h : s = p
    · subst h
      simp [setModel_cons, lookupModel_cons]
    · simp [setModel_cons, lookupModel_cons, h, ih]

lemma lookupModel_setModel_ne (ms : List (String × MEntry)) {p q : String}
    (f : MEntry → MEntry) (h : q ≠ p) :
    lookupModel (setModel ms p f) q = lookupModel ms q := by
  induction ms with
  | nil => simp [lookupModel, setModel]
  | cons r rest ih =>
    obtain ⟨s, e⟩ := r
    by_cases hs : s = p
    · subst hs
      simp [setModel_cons, lookupModel_cons, Ne.symm h, ih]
    · by_cases hq : s = q <;> simp [setModel_cons, lookupModel_cons, hs, hq, h, ih]

lemma keysOf_setModel (ms : List (String × MEntry)) (p : String) (f : MEntry → MEntry) :
    keysOf (setModel ms p f) = keysOf ms := by
  induction ms with
  | nil => rfl
  | cons q rest ih =>
    obtain ⟨s, e⟩ := q
    by_cases h : s = p <;> simp [setModel_cons, keysOf, h] at ih ⊢ <;> exact ih

lemma keysOf_insertModel (ms : List (String × MEntry)) (p : String) (e : MEntry) :
    keysOf (insertModel ms p e) =
      if (lookupModel ms p).isSome then keysOf ms else keysOf ms ++ [p] := by
  unfold insertModel
  by_cases h : (lookupModel ms p).isSome
  · simp [h, keysOf_setModel]
  · simp only [h, Bool.false_eq_true, if_false]
    simp [keysOf]

lemma lookupModel_insertModel_self (ms : List (String × MEntry)) (p : String) (e : MEntry) :
    lookupModel (insertModel ms p e) p = some e := by
  unfold insertModel
  by_cases h : (lookupModel ms p).isSome
  · obtain ⟨v, hv⟩ := Option.isSome_iff_exists.mp h
    simp [h, lookupModel_setModel_self, hv]
  · simp only [h, Bool.false_eq_true, if_false]
    rw [lookupModel_append]
    rw [Option.not_isSome_iff_eq_none.mp h]
    simp [lookupModel_cons]

lemma lookupModel_insertModel_ne (ms : List (String × MEntry)) {p q : String} (e : MEntry)
    (h : q ≠ p) : lookupModel (insertModel ms p e) q = lookupModel ms q := by
  unfold insertModel
  by_cases hs : (lookupModel ms p).isSome
  · simp [hs, lookupModel_setModel_ne ms _ h]
  · simp only [hs, Bool.false_eq_true, if_false]
    rw [lookupModel_append]
    rcases h1 : lookupModel ms q with - | v
    · simp [h1, lookupModel_cons, lookupModel, Ne.symm h]
    · simp

lemma mem_setModel {ms : List (String × MEntry)} {p : String} {f : MEntry → MEntry}
    {q : String × MEntry} (h : q ∈ setModel ms p f) :
    (∃ e, (p, e) ∈ ms ∧ q = (p, f e)) ∨ (q ∈ ms ∧ q.1 ≠ p) := by
  unfold setModel at h
  obtain ⟨⟨r1, r2⟩, hr, hq⟩ := List.mem_map.mp h
  by_cases hp : r1 = p
  · left
    subst hp
    simp only [if_pos rfl] at hq
    subst hq
    exact ⟨r2, hr, rfl⟩
  · right
    simp only [if_neg hp] at hq
    subst hq
    exact ⟨hr, hp⟩

lemma mem_insertModel {ms : List (String × MEntry)} {p : String} {e : MEntry}
    {q : String × MEntry} (h : q ∈ insertModel ms p e) :
    q ∈ ms ∨ q = (p, e) := by
  unfold insertModel at h
  by_cases hs : (lookupModel ms p).isSome
  · simp only [hs, if_true] at h
    rcases mem_setModel h with ⟨e2, -, hq⟩ | ⟨hmem, -⟩
    · right; exact hq
    · left; exact hmem
  · simp only [hs, Bool.false_eq_true, if_false, List.mem_append,
      List.mem_singleton] at h
    exact h

lemma mem_of_lookupModel_eq {ms : List (String × MEntry)} {p : String} {e : MEntry}
    (h : lookupModel ms p = some e) : (p, e) ∈ ms := by
  induction ms with
  | nil => simp [lookupModel] at h
  | cons q rest ih =>
    obtain ⟨s, e2⟩ := q
    by_cases hs : s = p
    · subst hs
      simp [lookupModel_cons] at h
      simp [h]
    · simp only [lookupModel_cons, if_neg hs] at h
      exact List.mem_cons_of_mem _ (ih h)

lemma lookupModel_eq_of_mem_nodup {ms : List (String × MEntry)} {p : String} {e : MEntry}
    (hn : (keysOf ms).Nodup) (h : (p, e) ∈ ms) : lookupModel ms p = some e := by
  induction ms with
  | nil => simp at h
  | cons q rest ih =>
    obtain ⟨s, e2⟩ := q
    simp only [keysOf, List.map_cons, List.nodup_cons] at hn
    rcases List.mem_cons.mp h with h1 | h1
    · obtain ⟨hs, he⟩ := Prod.mk.injEq .. |>.mp h1
      subst hs he
      simp [lookupModel_cons]
    · have hne : s ≠ p := by
        intro hc
        subst hc
        exact hn.1 (by simpa [keysOf] using List.mem_map_of_mem Prod.fst h1)
      simp only [lookupModel_cons, if_neg hne]
      exact ih (by simpa [keysOf] using hn.2) h1

lemma keysOf_nodup_insertModel (ms : List (String × MEntry)) (p : String) (e : MEntry)
    (hn : (keysOf ms).Nodup) : (keysOf (insertModel ms p e)).Nodup := by
  rw [keysOf_insertModel]
  by_cases h : (lookupModel ms p).isSome
  · simpa [h] using hn
  · simp only [h, Bool.false_eq_true, if_false]
    rw [List.nodup_append]
    refine ⟨hn, List.nodup_singleton p, ?_⟩
    intro a ha hb
    simp at hb
    subst hb
    have h0 : lookupModel ms a = none := Option.not_isSome_iff_eq_none.mp h
    exact (lookupModel_eq_none_iff ms a).mp h0 ha

/-! ## Basic timer-semantics lemmas -/

/-- Is this one of the guarded `startAnimationSequence` callbacks? -/
def Cb.isSeq : Cb → Bool
  | .seqModel _ => true
  | .seqSpot _ => true
  | _ => false

lemma fire_started (w : World) (t : Timer) : (fire w t).started = w.started := by
  rcases t with ⟨ft, cb⟩
  cases cb <;> simp only [fire] <;> (try split) <;> rfl

lemma fire_timers (w : World) (t : Timer) : (fire w t).timers = w.timers := by
  rcases t with ⟨ft, cb⟩
  cases cb <;> simp only [fire] <;> (try split) <;> rfl

lemma fire_now (w : World) (t : Timer) : (fire w t).now = w.now := by
  rcases t with ⟨ft, cb⟩
  cases cb <;> simp only [fire] <;> (try split) <;> rfl

lemma fire_keysOf (w : World) (t : Timer) : keysOf (fire w t).models = keysOf w.models := by
  rcases t with ⟨ft, cb⟩
  cases cb <;> simp only [fire] <;> (try split) <;>
    simp [keysOf_setModel]

lemma foldl_fire_started (L : List Timer) (w : World) :
    (L.foldl fire w).started = w.started := by
  induction L generalizing w with
  | nil => rfl
  | cons t rest ih => rw [List.foldl_cons, ih, fire_started]

lemma foldl_fire_timers (L : List Timer) (w : World) :
    (L.foldl fire w).timers = w.timers := by
  induction L generalizing w with
  | nil => rfl
  | cons t rest ih => rw [List.foldl_cons, ih, fire_timers]

lemma foldl_fire_now (L : List Timer) (w : World) :
    (L.foldl fire w).now = w.now := by
  induction L generalizing w with
  | nil => rfl
  | cons t rest ih => rw [List.foldl_cons, ih, fire_now]

lemma foldl_fire_keysOf (L : List Timer) (w : World) :
    keysOf (L.foldl fire w).models = keysOf w.models := by
  induction L generalizing w with
  | nil => rfl
  | cons t rest ih => rw [List.foldl_cons, ih, fire_keysOf]

/-- A guarded sequencer callback firing while the sequence is stopped is a
complete no-op. -/
lemma fire_guarded_not_started {w : World} {t : Timer}
    (h : w.started = false) (hg : t.cb.isSeq = true) : fire w t = w := by
  rcases t with ⟨ft, cb⟩
  cases cb <;> simp only [fire] <;> first
    | (rw [if_neg (by simp [h])])
    | simp [Cb.isSeq] at hg

lemma advanceTo_of_timers_nil {w : World} (h : w.timers = []) (t : Nat) :
    advanceTo t w = if t < w.now then w else { w with now := t } := by
  unfold advanceTo
  split
  · rfl
  · simp [dueTimers, h, List.insertionSort]

/-- Pure time advancement of a world with an empty timer queue changes only
the clock. -/
lemma foldl_advanceTo_of_timers_nil {w : World} (h : w.timers = []) (ts : List Nat) :
    ∃ n, ts.foldl (fun a t => advanceTo t a) w = { w with now := n } := by
  induction ts generalizing w with
  | nil => exact ⟨w.now, rfl⟩
  | cons t rest ih =>
    rw [List.foldl_cons, advanceTo_of_timers_nil h]
    split
    · exact ih h
    · obtain ⟨n, hn⟩ := ih (w := { w with now := t }) (by simpa using h)
      exact ⟨n, by simpa using hn⟩

/-! ## The sequencer state-machine invariant (part_002 AR variant) -/

/-- Every model in the registry is invisible. -/
def modelsHidden (w : World) : Prop := ∀ q ∈ w.models, (q : String × MEntry).2.visible = false

/-- Every spotlight is invisible. -/
def spotsHidden (w : World) : Prop := ∀ s ∈ w.spots, (s : Spot).visible = false

/-- States reachable in the AR variant: the session is set up by
`initializeAR`'s load loop, and then evolves by `startAnimationSequence`
(target found), `stopAnimationSequence` (target lost) and the passage of
wall-clock time. -/
inductive SeqReach (clips : String → Nat) (fail : List String) (cfgs : List Config) :
    World → Prop where
  | init : SeqReach clips fail cfgs (seqInitAR clips fail cfgs)
  | startStep {w : World} : SeqReach clips fail cfgs w →
      SeqReach clips fail cfgs (startSeq w)
  | stopStep {w : World} : SeqReach clips fail cfgs w →
      SeqReach clips fail cfgs (stopSeq w)
  | advStep {w : World} (t : Nat) : SeqReach clips fail cfgs w →
      SeqReach clips fail cfgs (advanceTo t w)

/-- The spec's SequenceState invariant, Idle/Stopped side: when the sequence
is not running, the pending set is empty and all assets are hidden. -/
def SeqInv (w : World) : Prop :=
  w.started = false → w.timers = [] ∧ modelsHidden w ∧ spotsHidden w

lemma seqLoadStep_inv {clips : String → Nat} {fail : List String} {w : World} {c : Config}
    (h : SeqInv w) : SeqInv (seqLoadStep clips fail w c) := by
  simp only [seqLoadStep]
  split
  · exact h
  · split
    · intro hst
      obtain ⟨h1, h2, h3⟩ := h hst
      exact ⟨h1, h2, h3⟩
    · split
      · intro hst
        obtain ⟨h1, h2, h3⟩ := h hst
        refine ⟨h1, ?_, h3⟩
        intro q hq
        rcases mem_insertModel hq with hm | hm
        · exact h2 q hm
        · simp [hm]
      · intro hst
        obtain ⟨h1, h2, h3⟩ := h hst
        refine ⟨h1, ?_, ?_⟩
        · intro q hq
          rcases mem_insertModel hq with hm | hm
          · exact h2 q hm
          · simp [hm]
        · intro s hs
          rcases List.mem_append.mp hs with hm | hm
          · exact h3 s hm
          · simp at hm
            simp [hm]

lemma seqInitAR_inv (clips : String → Nat) (fail : List String) (cfgs : List Config) :
    SeqInv (seqInitAR clips fail cfgs) := by
  unfold seqInitAR
  generalize hw : ({} : World) = w0
  have h0 : SeqInv w0 := by
    intro _
    refine ⟨?_, ?_, ?_⟩ <;> simp [← hw, modelsHidden, spotsHidden]
  clear hw
  induction cfgs generalizing w0 with
  | nil => exact h0
  | cons c rest ih => exact ih _ (seqLoadStep_inv h0)

lemma startSeq_started (w : World) : (startSeq w).started = true ∨ startSeq w = w := by
  unfold startSeq
  split
  · right; rfl
  · left; rfl

lemma stopSeq_started_false (w : World) : (stopSeq w).started = false := by
  unfold stopSeq
  split
  · rename_i h1
    simpa using h1
  · rfl

lemma seqInv_startSeq {w : World} (h : SeqInv w) : SeqInv (startSeq w) := by
  unfold startSeq
  split
  · exact h
  · intro hst
    simp at hst

lemma seqInv_stopSeq {w : World} (h : SeqInv w) : SeqInv (stopSeq w) := by
  unfold stopSeq
  split
  · exact h
  · intro hst
    refine ⟨rfl, ?_, ?_⟩
    · intro q hq
      obtain ⟨r, hr, hrq⟩ := List.mem_map.mp hq
      simp [← hrq, hideResetEntry]
    · intro s hs
      obtain ⟨r, hr, hrs⟩ := List.mem_map.mp hs
      simp [← hrs]

lemma advanceTo_started (t : Nat) (w : World) : (advanceTo t w).started = w.started := by
  unfold advanceTo
  split
  · rfl
  · rw [foldl_fire_started]

lemma seqInv_advanceTo {w : World} (t : Nat) (h : SeqInv w) : SeqInv (advanceTo t w) := by
  by_cases hst : w.started = true
  · intro hc
    rw [advanceTo_started, hst] at hc
    exact absurd hc (by simp)
  · replace hst : w.started = false := by simpa using hst
    obtain ⟨h1, h2, h3⟩ := h hst
    rw [advanceTo_of_timers_nil h1]
    split
    · exact h
    · intro hc
      exact ⟨by simpa using h1, h2, h3⟩

lemma seqReach_inv {clips : String → Nat} {fail : List String} {cfgs : List Config}
    {w : World} (h : SeqReach clips fail cfgs w) : SeqInv w := by
  induction h with
  | init => exact seqInitAR_inv clips fail cfgs
  | startStep _ ih => exact seqInv_startSeq ih
  | stopStep _ ih => exact seqInv_stopSeq ih
  | advStep t _ ih => exact seqInv_advanceTo t ih

lemma stopSeq_timers_nil {w : World} (h : SeqInv w) : (stopSeq w).timers = [] := by
  unfold stopSeq
  split
  · rename_i h1
    exact (h (by simpa using h1)).1
  · rfl

lemma stopSeq_hidden {w : World} (h : SeqInv w) :
    modelsHidden (stopSeq w) ∧ spotsHidden (stopSeq w) := by
  unfold stopSeq
  split
  · rename_i h1
    obtain ⟨-, h2, h3⟩ := h (by simpa using h1)
    exact ⟨h2, h3⟩
  · constructor
    · intro q hq
      obtain ⟨r, hr, hrq⟩ := List.mem_map.mp hq
      simp [← hrq, hideResetEntry]
    · intro s hs
      obtain ⟨r, hr, hrs⟩ := List.mem_map.mp hs
      simp [← hrs]

/-- C1.  Once `stopAnimationSequence` has returned, the pending-timeout set
is empty (all timers were cancelled synchronously), every model and
spotlight is hidden, any further passage of wall-clock time leaves every
model and spotlight state and the reveal history unchanged (no reveal ever
fires after `stop()`), and even a leftover sequencer callback that
nonetheless ran would be a complete no-op thanks to the
`animationSequenceStarted` guard. -/
theorem stopSeq_cancels_all_no_zombie_reveals
    (clips : String → Nat) (fail : List String) (cfgs : List Config) (w : World)
    (hw : SeqReach clips fail cfgs w) :
    (stopSeq w).timers = [] ∧
    modelsHidden (stopSeq w) ∧ spotsHidden (stopSeq w) ∧
    (∀ ts : List Nat,
      (ts.foldl (fun a t => advanceTo t a) (stopSeq w)).models = (stopSeq w).models ∧
      (ts.foldl (fun a t => advanceTo t a) (stopSeq w)).spots = (stopSeq w).spots ∧
      (ts.foldl (fun a t => advanceTo t a) (stopSeq w)).log = (stopSeq w).log) ∧
    (∀ tm : Timer, tm.cb.isSeq = true → fire (stopSeq w) tm = stopSeq w) := by
  have hinv := seqReach_inv hw
  have ht := stopSeq_timers_nil hinv
  have hh := stopSeq_hidden hinv
  refine ⟨ht, hh.1, hh.2, ?_, ?_⟩
  · intro ts
    obtain ⟨n, hn⟩ := foldl_advanceTo_of_timers_nil ht ts
    rw [hn]
    exact ⟨rfl, rfl, rfl⟩
  · intro tm hg
    exact fire_guarded_not_started (stopSeq_started_false w) hg

/-- Witness for C1 at a concrete reachable state: one enabled entry with
delay 1000, sequence started, stopped at time 400, then time advanced to
2000 and 5000. -/
theorem stopSeq_cancels_all_no_zombie_reveals_witness :
    (stopSeq (advanceTo 400 (startSeq (seqInitAR (fun _ => 1) []
        [{ path := "b.glb", delay := 1000, visible := false, enabled := true }])))).timers
      = [] ∧
    modelsHidden (stopSeq (advanceTo 400 (startSeq (seqInitAR (fun _ => 1) []
        [{ path := "b.glb", delay := 1000, visible := false, enabled := true }])))) ∧
    spotsHidden (stopSeq (advanceTo 400 (startSeq (seqInitAR (fun _ => 1) []
        [{ path := "b.glb", delay := 1000, visible := false, enabled := true }])))) ∧
    (∀ ts : List Nat,
      (ts.foldl (fun a t => advanceTo t a) (stopSeq (advanceTo 400 (startSeq
          (seqInitAR (fun _ => 1) []
          [{ path := "b.glb", delay := 1000, visible := false, enabled := true }]))))).models
        = (stopSeq (advanceTo 400 (startSeq (seqInitAR (fun _ => 1) []
          [{ path := "b.glb", delay := 1000, visible := false, enabled := true }])))).models ∧
      (ts.foldl (fun a t => advanceTo t a) (stopSeq (advanceTo 400 (startSeq
          (seqInitAR (fun _ => 1) []
          [{ path := "b.glb", delay := 1000, visible := false, enabled := true }]))))).spots
        = (stopSeq (advanceTo 400 (startSeq (seqInitAR (fun _ => 1) []
          [{ path := "b.glb", delay := 1000, visible := false, enabled := true }])))).spots ∧
      (ts.foldl (fun a t => advanceTo t a) (stopSeq (advanceTo 400 (startSeq
          (seqInitAR (fun _ => 1) []
          [{ path := "b.glb", delay := 1000, visible := false, enabled := true }]))))).log
        = (stopSeq (advanceTo 400 (startSeq (seqInitAR (fun _ => 1) []
          [{ path := "b.glb", delay := 1000, visible := false, enabled := true }])))).log) ∧
    (∀ tm : Timer, tm.cb.isSeq = true →
      fire (stopSeq (advanceTo 400 (startSeq (seqInitAR (fun _ => 1) []
          [{ path := "b.glb", delay := 1000, visible := false, enabled := true }])))) tm
        = stopSeq (advanceTo 400 (startSeq (seqInitAR (fun _ => 1) []
          [{ path := "b.glb", delay := 1000, visible := false, enabled := true }])))) :=
  stopSeq_cancels_all_no_zombie_reveals (fun _ => 1) []
    [{ path := "b.glb", delay := 1000, visible := false, enabled := true }] _
    (SeqReach.advStep 400 (SeqReach.startStep SeqReach.init))

/-- C10.  Calling `startAnimationSequence` while the sequence is already
running returns immediately without touching any state, so starting twice
equals starting once. -/
theorem startSeq_noop_when_running (w : World) :
    (w.started = true → startSeq w = w) ∧ startSeq (startSeq w) = startSeq w := by
  constructor
  · intro h
    unfold startSeq
    simp [h]
  · by_cases h : w.started = true
    · unfold startSeq
      simp [h]
    · have h1 : (startSeq w).started = true := by
        unfold startSeq
        simp at h
        simp [h]
      generalize startSeq w = v at h1 ⊢
      unfold startSeq
      simp [h1]

/-- Witness for C10 at a concrete running state. -/
theorem startSeq_noop_when_running_witness :
    startSeq { started := true } = ({ started := true } : World) ∧
    startSeq (startSeq { started := true }) = startSeq ({ started := true } : World) :=
  ⟨(startSeq_noop_when_running { started := true }).1 rfl,
   (startSeq_noop_when_running { started := true }).2⟩

/-! ## Show / hide idempotence (Controller contract, part_001) -/

lemma setModel_comp (ms : List (String × MEntry)) (p : String) (f g : MEntry → MEntry) :
    setModel (setModel ms p g) p f = setModel ms p (fun e => f (g e)) := by
  unfold setModel
  rw [List.map_map]
  apply List.map_congr_left
  intro q hq
  by_cases h : q.1 = p <;> simp [h]

lemma setModel_congr (ms : List (String × MEntry)) (p : String) {f g : MEntry → MEntry}
    (h : ∀ e, f e = g e) : setModel ms p f = setModel ms p g := by
  unfold setModel
  apply List.map_congr_left
  intro q hq
  by_cases hp : q.1 = p <;> simp [hp, h]

lemma hideEntry_idem (e : MEntry) : hideEntry (hideEntry e) = hideEntry e := by
  simp [hideEntry, List.map_map]

lemma revealEntry_idem (e : MEntry) : revealEntry (revealEntry e) = revealEntry e := by
  simp [revealEntry, List.map_map]

lemma revealEntry_hideEntry (e : MEntry) :
    revealEntry (hideEntry e) = revealEntry e := by
  simp [revealEntry, hideEntry, List.map_map, Function.comp_def]

/-- The world with the ghost reveal history erased: what remains is exactly
the JavaScript-observable state. -/
def stripLog (w : World) : World := { w with log := [] }

lemma showModelP1_of_lookup {w : World} {p : String} {e : MEntry}
    (he : lookupModel w.models p = some e) (d : Nat) :
    showModelP1 p d w =
      { w with timers := w.timers ++ [Timer.mk (w.now + d) (Cb.mmShow p)] } := by
  unfold showModelP1
  rw [he]

lemma fire_mmShow_some {w : World} {p : String} {e : MEntry}
    (he : lookupModel w.models p = some e) (t : Nat) :
    fire w (Timer.mk t (Cb.mmShow p)) =
      { w with models := setModel w.models p revealEntry,
               log := w.log ++ [Cb.mmShow p] } := by
  simp only [fire]
  rw [he]

lemma fire_mmShow_none {w : World} {p : String}
    (he : lookupModel w.models p = none) (t : Nat) :
    fire w (Timer.mk t (Cb.mmShow p)) = { w with crashes := w.crashes ++ [p] } := by
  simp only [fire]
  rw [he]

lemma advanceTo_fire_one {w : World} {p : String} {e : MEntry} (d : Nat)
    (he : lookupModel w.models p = some e) (hq : w.timers = []) :
    advanceTo (w.now + d) (showModelP1 p d w) =
      { w with now := w.now + d,
               models := setModel w.models p revealEntry,
               log := w.log ++ [Cb.mmShow p] } := by
  rw [showModelP1_of_lookup he, hq]
  unfold advanceTo
  rw [if_neg (by simp)]
  have h2 : dueTimers (w.now + d) ([] ++ [Timer.mk (w.now + d) (Cb.mmShow p)])
      = [Timer.mk (w.now + d) (Cb.mmShow p)] := by
    simp [dueTimers, List.insertionSort]
  rw [h2]
  have h1 : List.filter (fun tm => decide ¬ tm.fireAt ≤ w.now + d)
      ([] ++ [Timer.mk (w.now + d) (Cb.mmShow p)]) = [] := by simp
  simp only [h1, List.foldl_cons, List.foldl_nil]
  exact fire_mmShow_some (w := { w with now := w.now + d, timers := [] }) he _

lemma hideModelP1_of_lookup {w : World} {p : String} {e : MEntry}
    (he : lookupModel w.models p = some e) :
    hideModelP1 p w = { w with models := setModel w.models p hideEntry } := by
  unfold hideModelP1
  rw [he]

lemma advanceTo_fire_twice {w : World} {p : String} {e : MEntry} (d : Nat)
    (he : lookupModel w.models p = some e) (hq : w.timers = []) :
    advanceTo (w.now + d) (showModelP1 p d (showModelP1 p d w)) =
      { w with now := w.now + d,
               models := setModel w.models p revealEntry,
               log := w.log ++ [Cb.mmShow p, Cb.mmShow p] } := by
  rw [showModelP1_of_lookup he]
  rw [showModelP1_of_lookup
      (w := { w with timers := w.timers ++ [Timer.mk (w.now + d) (Cb.mmShow p)] })
      (e := e) he]
  rw [hq]
  unfold advanceTo
  rw [if_neg (by simp)]
  have h2 : dueTimers (w.now + d)
      ([] ++ [Timer.mk (w.now + d) (Cb.mmShow p)] ++ [Timer.mk (w.now + d) (Cb.mmShow p)])
      = [Timer.mk (w.now + d) (Cb.mmShow p), Timer.mk (w.now + d) (Cb.mmShow p)] := by
    simp [dueTimers, List.insertionSort, List.orderedInsert]
  rw [h2]
  have h1 : List.filter (fun tm => decide ¬ tm.fireAt ≤ w.now + d)
      ([] ++ [Timer.mk (w.now + d) (Cb.mmShow p)] ++ [Timer.mk (w.now + d) (Cb.mmShow p)])
      = [] := by simp
  simp only [h1, List.foldl_cons, List.foldl_nil]
  rw [fire_mmShow_some (w := { w with now := w.now + d, timers := [] }) he]
  have hrev : lookupModel (setModel w.models p revealEntry) p = some (revealEntry e) := by
    rw [lookupModel_setModel_self, he]
    rfl
  rw [fire_mmShow_some
      (w := { w with now := w.now + d, timers := [],
                     models := setModel w.models p revealEntry,
                     log := w.log ++ [Cb.mmShow p] })
      (e := revealEntry e) hrev]
  rw [show setModel (setModel w.models p revealEntry) p revealEntry
        = setModel w.models p revealEntry by
      rw [setModel_comp]
      exact setModel_congr _ _ fun e2 => revealEntry_idem e2]
  simp

/-- C9.  `showModel` and `hideModel` are idempotent with the stated
resolution: hiding twice equals hiding once, and hiding always turns
visibility off and pauses every action at its current position — even when
the model was already hidden; the reveal fired by `showModel` always turns
visibility on, resets every action's position to zero and sets it playing —
even when the model was already visible — and showing twice leaves the same
observable state as showing once. -/
theorem showModel_hideModel_idempotent (w : World) (p : String) (d : Nat) (e : MEntry)
    (he : lookupModel w.models p = some e) (hq : w.timers = []) :
    hideModelP1 p (hideModelP1 p w) = hideModelP1 p w ∧
    lookupModel (hideModelP1 p w).models p = some (hideEntry e) ∧
    (hideEntry e).visible = false ∧
    (∀ a ∈ (hideEntry e).acts, a.paused = true) ∧
    (hideEntry e).acts.map Act.time = e.acts.map Act.time ∧
    lookupModel (advanceTo (w.now + d) (showModelP1 p d w)).models p
      = some (revealEntry e) ∧
    (revealEntry e).visible = true ∧
    (∀ a ∈ (revealEntry e).acts, a.paused = false ∧ a.time = 0) ∧
    stripLog (advanceTo (w.now + d) (showModelP1 p d (showModelP1 p d w))) =
      stripLog (advanceTo (w.now + d) (showModelP1 p d w)) := by
  have hsm : lookupModel (setModel w.models p hideEntry) p = some (hideEntry e) := by
    rw [lookupModel_setModel_self, he]
    rfl
  have hh : lookupModel (hideModelP1 p w).models p = some (hideEntry e) := by
    rw [hideModelP1_of_lookup he]
    exact hsm
  refine ⟨?_, hh, rfl, ?_, ?_, ?_, rfl, ?_, ?_⟩
  · rw [hideModelP1_of_lookup he]
    rw [hideModelP1_of_lookup
        (w := { w with models := setModel w.models p hideEntry })
        (e := hideEntry e) hsm]
    rw [show setModel ({ w with models := setModel w.models p hideEntry } : World).models
          p hideEntry = setModel w.models p hideEntry by
        rw [show ({ w with models := setModel w.models p hideEntry } : World).models
              = setModel w.models p hideEntry from rfl]
        rw [setModel_comp]
        exact setModel_congr _ _ fun e2 => hideEntry_idem e2]
  · intro a ha
    unfold hideEntry at ha
    simp at ha
    obtain ⟨b, -, hb⟩ := ha
    simp [← hb]
  · simp [hideEntry, List.map_map, Function.comp_def]
  · rw [advanceTo_fire_one d he hq]
    rw [show ({ w with now := w.now + d,
                       models := setModel w.models p revealEntry,
                       log := w.log ++ [Cb.mmShow p] } : World).models
          = setModel w.models p revealEntry from rfl]
    rw [lookupModel_setModel_self, he]
    rfl
  · intro a ha
    unfold revealEntry at ha
    simp at ha
    simp [ha]
  · rw [advanceTo_fire_one d he hq, advanceTo_fire_twice d he hq]
    rfl

/-- The registry entry of one loaded, visible model with one action. -/
def eEx9 : MEntry :=
  { objId := 1, visible := true, delay := 0, optVisible := true,
    acts := [{ paused := true, time := 0 }] }

/-- A world holding that one loaded model, with no pending timers. -/
def wEx9 : World := { models := [("m.fbx", eEx9)], fetchCount := 1 }

/-- Witness for C9 at the concrete loaded model and delay 7. -/
theorem showModel_hideModel_idempotent_witness :
    hideModelP1 "m.fbx" (hideModelP1 "m.fbx" wEx9) = hideModelP1 "m.fbx" wEx9 ∧
    lookupModel (hideModelP1 "m.fbx" wEx9).models "m.fbx" = some (hideEntry eEx9) ∧
    (hideEntry eEx9).visible = false ∧
    (∀ a ∈ (hideEntry eEx9).acts, a.paused = true) ∧
    (hideEntry eEx9).acts.map Act.time = eEx9.acts.map Act.time ∧
    lookupModel (advanceTo (wEx9.now + 7) (showModelP1 "m.fbx" 7 wEx9)).models "m.fbx"
      = some (revealEntry eEx9) ∧
    (revealEntry eEx9).visible = true ∧
    (∀ a ∈ (revealEntry eEx9).acts, a.paused = false ∧ a.time = 0) ∧
    stripLog (advanceTo (wEx9.now + 7) (showModelP1 "m.fbx" 7 (showModelP1 "m.fbx" 7 wEx9))) =
      stripLog (advanceTo (wEx9.now + 7) (showModelP1 "m.fbx" 7 wEx9)) :=
  showModel_hideModel_idempotent wEx9 "m.fbx" 7 eEx9 (by decide) rfl

/-! ## Delayed-reveal scheduling at load time (C3) -/

/-- Counterexample to the claim that a `delay = 0`, initially-invisible
entry is still scheduled by `loadModel`'s delayed-visibility branch: loading
`"m.fbx"` with `delay := 0, visible := false` schedules nothing (the branch
requires `delay > 0`), and the model is still invisible after any amount of
time — it is never revealed by the load-time scheduling. -/
theorem loadModel_zero_delay_never_scheduled :
    ((loadModelP1 (fun _ => 1) [] "m.fbx"
        { visible := false, delay := 0 } {}).toOption.getD {}).timers = [] ∧
    (lookupModel (advanceTo 1000 ((loadModelP1 (fun _ => 1) [] "m.fbx"
        { visible := false, delay := 0 } {}).toOption.getD {})).models "m.fbx").map
      MEntry.visible = some false := by
  decide

/-- C3 (amended).  `loadModel`'s load-time scheduling covers exactly the
entries with `delay > 0` and initial visibility `false`: such an entry gets
one reveal timeout at `now + delay`.  An entry with `delay = 0` and initial
visibility `false` is **excluded** from this scheduling: no timeout is
created, the entry is stored invisible, and it stays invisible under any
passage of time (it is only revealed later by the AR animation sequence or
by a reset). -/
theorem loadModel_delay_scheduling (clips : String → Nat) (fail : List String)
    (path : String) (opts : LoadOpts) (w w' : World)
    (h : loadModelP1 clips fail path opts w = .ok w') :
    (0 < opts.delay ∧ opts.visible = false →
       w'.timers = w.timers ++ [Timer.mk (w.now + opts.delay) (Cb.mmShow path)]) ∧
    (opts.delay = 0 → w'.timers = w.timers) ∧
    (opts.visible = false →
       (lookupModel w'.models path).map MEntry.visible = some false) ∧
    (opts.delay = 0 → opts.visible = false → w.timers = [] →
       ∀ t, (lookupModel (advanceTo t w').models path).map MEntry.visible
         = some false) := by
  simp only [loadModelP1] at h
  split at h
  · simp at h
  · split at h
    · simp at h
    · simp only [Except.ok.injEq] at h
      subst h
      set e0 : MEntry :=
        { objId := w.fetchCount + 1, visible := opts.visible, delay := opts.delay,
          optVisible := opts.visible,
          acts := List.replicate (clips path) { paused := true, time := 0 } } with he0
      set w1 : World := { w with fetchCount := w.fetchCount + 1,
                                 models := insertModel w.models path e0 } with hw1
      have hlook : lookupModel w1.models path = some e0 := by
        rw [hw1]
        exact lookupModel_insertModel_self w.models path e0
      refine ⟨?_, ?_, ?_, ?_⟩
      · intro ⟨hd, hv⟩
        rw [if_pos ⟨hd, hv⟩, showModelP1_of_lookup hlook]
      · intro hd
        rw [if_neg (by simp [hd])]
      · intro hv
        have hm : (if 0 < opts.delay ∧ opts.visible = false
            then showModelP1 path opts.delay w1 else w1).models = w1.models := by
          split
          · rw [showModelP1_of_lookup hlook]
          · rfl
        rw [hm, hlook]
        simp [he0, hv]
      · intro hd hv ht t
        rw [if_neg (by simp [hd])]
        have ht1 : w1.timers = [] := ht
        rw [advanceTo_of_timers_nil ht1]
        split
        · rw [hlook]
          simp [he0, hv]
        · rw [show ({ w1 with now := t } : World).models = w1.models from rfl, hlook]
          simp [he0, hv]

/-- Witness for C3's amended theorem: a `delay = 2000` invisible entry gets
exactly one timeout at 2000, and a `delay = 0` invisible entry gets none and
stays hidden at time 1000. -/
theorem loadModel_delay_scheduling_witness :
    (((loadModelP1 (fun _ => 1) [] "a.fbx" { visible := false, delay := 2000 }
        {}).toOption.getD {}).timers
      = [] ++ [Timer.mk (0 + 2000) (Cb.mmShow "a.fbx")]) ∧
    (((loadModelP1 (fun _ => 1) [] "b.fbx" { visible := false, delay := 0 }
        {}).toOption.getD {}).timers = []) ∧
    ((lookupModel (advanceTo 1000 ((loadModelP1 (fun _ => 1) [] "b.fbx"
        { visible := false, delay := 0 } {}).toOption.getD {})).models "b.fbx").map
      MEntry.visible = some false) := by
  have h1 := loadModel_delay_scheduling (fun _ => 1) [] "a.fbx"
    { visible := false, delay := 2000 } {}
    (((loadModelP1 (fun _ => 1) [] "a.fbx" { visible := false, delay := 2000 }
        {}).toOption.getD {})) rfl
  have h2 := loadModel_delay_scheduling (fun _ => 1) [] "b.fbx"
    { visible := false, delay := 0 } {}
    (((loadModelP1 (fun _ => 1) [] "b.fbx" { visible := false, delay := 0 }
        {}).toOption.getD {})) rfl
  exact ⟨h1.1 (by decide), h2.2.1 rfl, h2.2.2.2 rfl rfl rfl 1000⟩

/-! ## loadModel idempotence (C5) -/

/-- Counterexample to per-reference idempotence of `ModelManager.loadModel`
in part_001: loading `"m.fbx"` twice performs a second fetch/decode
(`fetchCount` reaches 2) and replaces the stored handle (the registry holds
the second decode's object, `objId = 2`) — there is no already-loaded check
in this variant. -/
theorem loadModelP1_reloads_and_replaces :
    (((loadModelP1 (fun _ => 1) [] "m.fbx" { visible := true, delay := 0 }
        ((loadModelP1 (fun _ => 1) [] "m.fbx" { visible := true, delay := 0 }
          {}).toOption.getD {})).toOption.getD {}).fetchCount = 2) ∧
    ((lookupModel ((loadModelP1 (fun _ => 1) [] "m.fbx" { visible := true, delay := 0 }
        ((loadModelP1 (fun _ => 1) [] "m.fbx" { visible := true, delay := 0 }
          {}).toOption.getD {})).toOption.getD {}).models "m.fbx").map MEntry.objId
      = some 2) := by
  decide

/-- C5 (amended).  The `src/js/main.js` variant of `loadModel` is idempotent
per asset reference: when the path is already in the registry, a second call
resolves with the existing handle, performs no fetch/decode, and changes no
state at all.  The part_001 variant has no such check and reloads/replaces
(see the counterexample). -/
theorem loadModelMain_idempotent (clips : String → Nat) (fail : List String)
    (path : String) (opts : LoadOpts) (w : World) (e : MEntry)
    (he : lookupModel w.models path = some e) :
    loadModelMain clips fail path opts w = .ok (w, e) := by
  unfold loadModelMain
  rw [he]

/-- Witness for C5's amended theorem at a concrete loaded registry. -/
theorem loadModelMain_idempotent_witness :
    loadModelMain (fun _ => 1) [] "m.fbx" { visible := false, delay := 3 } wEx9
      = .ok (wEx9, eEx9) :=
  loadModelMain_idempotent (fun _ => 1) [] "m.fbx" { visible := false, delay := 3 }
    wEx9 eEx9 (by decide)

/-! ## clearModels and pending reveal callbacks (C6) -/

/-- C6 is a bug in the code: after `loadTestModels` schedules the reveal of
`"m.fbx"` at 1000 ms, calling `clearModels` at 500 ms leaves the pending
timeout uncancelled and the scene-graph node still attached; when the
timeout fires at its due time, its callback reads
`this.models["m.fbx"].object` from the now-empty registry — a `TypeError`
on `undefined` (recorded in `crashes`). -/
theorem clearModels_pending_callback_dereferences_absent_entry :
    ((clearModelsP1 (advanceTo 500 (loadTestModels (fun _ => 1) []
        [{ path := "m.fbx", delay := 1000, visible := false, enabled := true }]))).timers
      ≠ []) ∧
    ((clearModelsP1 (advanceTo 500 (loadTestModels (fun _ => 1) []
        [{ path := "m.fbx", delay := 1000, visible := false, enabled := true }]))).attached
      = [1]) ∧
    ((advanceTo 1500 (clearModelsP1 (advanceTo 500 (loadTestModels (fun _ => 1) []
        [{ path := "m.fbx", delay := 1000, visible := false,
           enabled := true }])))).crashes = ["m.fbx"]) := by
  decide

/-! ## Stable reveal order for equal delays (C8) -/

/-- C8.  Two enabled entries sharing the same delay, declared in the order
`[X, Y]`, are revealed in exactly that order when the clock reaches the
shared delay: the sequencer schedules one timeout per model in registry
(= configuration) order, and JavaScript fires timers with equal due times
in registration order, so the first two observed reveals are X then Y. -/
theorem equal_delay_reveal_order (clips : String → Nat) (d : Nat) (pX pY : String)
    (hne : pX ≠ pY) :
    ((advanceTo d (startSeq (seqInitAR clips []
      [{ path := pX, delay := d, visible := false, enabled := true },
       { path := pY, delay := d, visible := false, enabled := true }]))).log).take 2
      = [Cb.seqModel pX, Cb.seqModel pY] := by
  have hinit : seqInitAR clips []
      [{ path := pX, delay := d, visible := false, enabled := true },
       { path := pY, delay := d, visible := false, enabled := true }]
      = { models := [(pX, { objId := 1, visible := false, delay := d, optVisible := false,
                            acts := List.replicate (clips pX) { paused := true, time := 0 } }),
                     (pY, { objId := 2, visible := false, delay := d, optVisible := false,
                            acts := List.replicate (clips pY) { paused := true, time := 0 } })],
          spots := ((if strIncludes pX "dis-ball" then [] else [Spot.mk pX false d]) ++
                    (if strIncludes pY "dis-ball" then [] else [Spot.mk pY false d])),
          fetchCount := 2,
          attached := [1, 2] } := by
    by_cases hX : strIncludes pX "dis-ball" <;> by_cases hY : strIncludes pY "dis-ball" <;>
      simp [seqInitAR, seqLoadStep, insertModel, lookupModel, setModel, hX, hY, hne,
        Ne.symm hne]
  rw [hinit]
  by_cases hX : strIncludes pX "dis-ball" <;> by_cases hY : strIncludes pY "dis-ball" <;>
    simp [startSeq, advanceTo, dueTimers, fire, hX, hY, hne, Ne.symm hne, setModel,
      lookupModel, List.insertionSort, List.orderedInsert, hideResetEntry,
      setSpotVisible]

/-- Witness for C8: two distinct paths sharing delay 1000. -/
theorem equal_delay_reveal_order_witness :
    ((advanceTo 1000 (startSeq (seqInitAR (fun _ => 1) []
      [{ path := "x.fbx", delay := 1000, visible := false, enabled := true },
       { path := "y.fbx", delay := 1000, visible := false, enabled := true }]))).log).take 2
      = [Cb.seqModel "x.fbx", Cb.seqModel "y.fbx"] :=
  equal_delay_reveal_order (fun _ => 1) 1000 "x.fbx" "y.fbx" (by decide)

/-! ## restart vs stop-then-start (C4)

`resetModels` differs from the spec's `stop(); start()` in two observable
ways, witnessed by the counterexample below: it does not cancel reveal
timeouts still pending from the previous run, and it zeroes the paused
clips' positions immediately (by recreating every action) where the spec's
`stop` pauses them at their current position.  On a state with no pending
timeouts the two evolve in lock-step up to exactly the stored positions of
*paused* clips; `worldSim` is that relation: equality of every component
except that paused actions may hold different positions (playing actions
must agree, so positions agree from each reveal on). -/

/-- Action correspondence: same paused flag, and same position whenever the
action is playing. -/
def actSim (a b : Act) : Bool := (a.paused == b.paused) && (a.paused || (a.time == b.time))

/-- Pointwise action-list correspondence. -/
def actsSim : List Act → List Act → Bool
  | [], [] => true
  | a :: l, b :: m => actSim a b && actsSim l m
  | _, _ => false

/-- Entry correspondence: equal except possibly paused positions. -/
def entrySim (e1 e2 : MEntry) : Bool :=
  (e1.objId == e2.objId) && (e1.visible == e2.visible) && (e1.delay == e2.delay) &&
  (e1.optVisible == e2.optVisible) && actsSim e1.acts e2.acts

/-- Registry correspondence: same keys in the same order, entries related. -/
def modelsSim : List (String × MEntry) → List (String × MEntry) → Bool
  | [], [] => true
  | (p, e) :: l, (q, f) :: m => (p == q) && entrySim e f && modelsSim l m
  | _, _ => false

/-- World correspondence: every component equal, except that the registries
are only `modelsSim`-related (paused clip positions may differ). -/
def worldSim (w1 w2 : World) : Bool :=
  (w1.now == w2.now) && (w1.started == w2.started) &&
  modelsSim w1.models w2.models &&
  (w1.spots == w2.spots) && (w1.timers == w2.timers) &&
  (w1.cycleOn == w2.cycleOn) && (w1.fetchCount == w2.fetchCount) &&
  (w1.attached == w2.attached) && (w1.errs == w2.errs) &&
  (w1.log == w2.log) && (w1.crashes == w2.crashes)

lemma actsSim_length {l m : List Act} (h : actsSim l m = true) : l.length = m.length := by
  induction l generalizing m with
  | nil => cases m with
    | nil => rfl
    | cons b m2 => simp [actsSim] at h
  | cons a l2 ih => cases m with
    | nil => simp [actsSim] at h
    | cons b m2 =>
      simp only [actsSim, Bool.and_eq_true] at h
      simp [ih h.2]

lemma actsSim_const {l m : List Act} (h : actsSim l m = true) (c : Act) :
    actsSim (l.map fun _ => c) (m.map fun _ => c) = true := by
  induction l generalizing m with
  | nil => cases m with
    | nil => simp [actsSim]
    | cons b m2 => simp [actsSim] at h
  | cons a l2 ih => cases m with
    | nil => simp [actsSim] at h
    | cons b m2 =>
      simp only [actsSim, Bool.and_eq_true] at h
      simp only [List.map_cons, actsSim, Bool.and_eq_true]
      exact ⟨by simp [actSim], ih h.2⟩

lemma entrySim_reveal {e1 e2 : MEntry} (h : entrySim e1 e2 = true) :
    entrySim (revealEntry e1) (revealEntry e2) = true := by
  simp only [entrySim, Bool.and_eq_true, beq_iff_eq] at h ⊢
  obtain ⟨⟨⟨⟨h1, h2⟩, h3⟩, h4⟩, h5⟩ := h
  exact ⟨⟨⟨⟨by simp [revealEntry, h1], by simp [revealEntry]⟩, by simp [revealEntry, h3]⟩,
    by simp [revealEntry, h4]⟩, by simpa [revealEntry] using actsSim_const h5 _⟩

lemma modelsSim_setModel {l m : List (String × MEntry)} (h : modelsSim l m = true)
    (p : String) : modelsSim (setModel l p revealEntry) (setModel m p revealEntry) = true := by
  induction l generalizing m with
  | nil => cases m with
    | nil => simpa [setModel] using h
    | cons b m2 => simp [modelsSim] at h
  | cons a l2 ih => cases m with
    | nil => simp [modelsSim] at h
    | cons b m2 =>
      obtain ⟨pa, ea⟩ := a
      obtain ⟨pb, eb⟩ := b
      simp only [modelsSim, Bool.and_eq_true, beq_iff_eq] at h
      obtain ⟨⟨h1, h2⟩, h3⟩ := h
      subst h1
      by_cases hp : pa = p
      · subst hp
        rw [setModel_cons, setModel_cons, if_pos rfl, if_pos rfl]
        simp only [modelsSim, Bool.and_eq_true, beq_iff_eq]
        exact ⟨⟨trivial, entrySim_reveal h2⟩, ih h3⟩
      · rw [setModel_cons, setModel_cons, if_neg hp, if_neg hp]
        simp only [modelsSim, Bool.and_eq_true, beq_iff_eq]
        exact ⟨⟨trivial, h2⟩, ih h3⟩

lemma modelsSim_lookup {l m : List (String × MEntry)} (h : modelsSim l m = true)
    (p : String) :
    (lookupModel l p = none ∧ lookupModel m p = none) ∨
    (∃ e f, lookupModel l p = some e ∧ lookupModel m p = some f ∧ entrySim e f = true) := by
  induction l generalizing m with
  | nil => cases m with
    | nil => exact Or.inl ⟨rfl, rfl⟩
    | cons b m2 => simp [modelsSim] at h
  | cons a l2 ih => cases m with
    | nil => simp [modelsSim] at h
    | cons b m2 =>
      obtain ⟨pa, ea⟩ := a
      obtain ⟨pb, eb⟩ := b
      simp only [modelsSim, Bool.and_eq_true, beq_iff_eq] at h
      obtain ⟨⟨h1, h2⟩, h3⟩ := h
      subst h1
      by_cases hp : pa = p
      · exact Or.inr ⟨ea, eb, by simp [lookupModel_cons, hp], by simp [lookupModel_cons, hp], h2⟩
      · simp only [lookupModel_cons, if_neg hp]
        exact ih h3

lemma modelsSim_vis {l m : List (String × MEntry)} (h : modelsSim l m = true) :
    l.map (fun q => (q.1, q.2.visible)) = m.map (fun q => (q.1, q.2.visible)) := by
  induction l generalizing m with
  | nil => cases m with
    | nil => rfl
    | cons b m2 => simp [modelsSim] at h
  | cons a l2 ih => cases m with
    | nil => simp [modelsSim] at h
    | cons b m2 =>
      obtain ⟨pa, ea⟩ := a
      obtain ⟨pb, eb⟩ := b
      simp only [modelsSim, Bool.and_eq_true, beq_iff_eq] at h
      obtain ⟨⟨h1, h2⟩, h3⟩ := h
      subst h1
      simp only [entrySim, Bool.and_eq_true, beq_iff_eq] at h2
      simp [h2.1.1.1.2, ih h3]

lemma worldSim_iff (w1 w2 : World) : worldSim w1 w2 = true ↔
    (w1.now = w2.now ∧ w1.started = w2.started ∧
     modelsSim w1.models w2.models = true ∧ w1.spots = w2.spots ∧
     w1.timers = w2.timers ∧ w1.cycleOn = w2.cycleOn ∧
     w1.fetchCount = w2.fetchCount ∧ w1.attached = w2.attached ∧
     w1.errs = w2.errs ∧ w1.log = w2.log ∧ w1.crashes = w2.crashes) := by
  simp [worldSim, and_assoc]

lemma fire_sim {w1 w2 : World} (h : worldSim w1 w2 = true) (t : Timer) :
    worldSim (fire w1 t) (fire w2 t) = true := by
  obtain ⟨hnow, hst, hm, hsp, hti, hcy, hfc, hat, herr, hlog, hcr⟩ :=
    (worldSim_iff w1 w2).mp h
  rcases t with ⟨ft, cb⟩
  cases cb with
  | seqModel p =>
    simp only [fire]
    rw [← hst]
    split
    · rw [(worldSim_iff _ _)]
      exact ⟨hnow, rfl, modelsSim_setModel hm p, hsp, hti, hcy, hfc, hat, herr,
        by rw [hlog], hcr⟩
    · exact h
  | seqSpot p =>
    simp only [fire]
    rw [← hst]
    split
    · rw [(worldSim_iff _ _)]
      exact ⟨hnow, rfl, hm, by rw [hsp], hti, hcy, hfc, hat, herr, by rw [hlog], hcr⟩
    · exact h
  | mmShow p =>
    simp only [fire]
    rcases modelsSim_lookup hm p with ⟨hn1, hn2⟩ | ⟨e, f, he, hf, -⟩
    · rw [hn1, hn2]
      rw [(worldSim_iff _ _)]
      exact ⟨hnow, hst, hm, hsp, hti, hcy, hfc, hat, herr, hlog, by rw [hcr]⟩
    · rw [he, hf]
      rw [(worldSim_iff _ _)]
      exact ⟨hnow, hst, modelsSim_setModel hm p, hsp, hti, hcy, hfc, hat, herr,
        by rw [hlog], hcr⟩
  | testSpot p =>
    simp only [fire]
    rw [(worldSim_iff _ _)]
    exact ⟨hnow, hst, hm, by rw [hsp], hti, hcy, hfc, hat, herr, by rw [hlog], hcr⟩

lemma foldl_fire_sim (L : List Timer) {w1 w2 : World} (h : worldSim w1 w2 = true) :
    worldSim (L.foldl fire w1) (L.foldl fire w2) = true := by
  induction L generalizing w1 w2 with
  | nil => exact h
  | cons t rest ih => exact ih (fire_sim h t)

lemma advanceTo_sim {w1 w2 : World} (t : Nat) (h : worldSim w1 w2 = true) :
    worldSim (advanceTo t w1) (advanceTo t w2) = true := by
  obtain ⟨hnow, hst, hm, hsp, hti, hcy, hfc, hat, herr, hlog, hcr⟩ :=
    (worldSim_iff w1 w2).mp h
  unfold advanceTo
  rw [← hnow, ← hti]
  split
  · exact h
  · apply foldl_fire_sim
    rw [(worldSim_iff _ _)]
    exact ⟨rfl, hst, hm, hsp, rfl, hcy, hfc, hat, herr, hlog, hcr⟩

lemma actSim_tick {a b : Act} (d : Nat) (h : actSim a b = true) :
    actSim (if a.paused then a else { a with time := a.time + d })
           (if b.paused then b else { b with time := b.time + d }) = true := by
  simp only [actSim, Bool.and_eq_true, beq_iff_eq, Bool.or_eq_true] at h
  obtain ⟨h1, h2⟩ := h
  by_cases hp : a.paused
  · rw [if_pos hp, if_pos (h1 ▸ hp)]
    simp only [actSim, Bool.and_eq_true, beq_iff_eq, Bool.or_eq_true]
    exact ⟨h1, Or.inl hp⟩
  · replace hp : a.paused = false := by simpa using hp
    rw [if_neg (by simp [hp]), if_neg (by simp [← h1, hp])]
    rcases h2 with h2 | h2
    · simp [hp] at h2
    · simp [actSim, h1, hp, h2]

lemma actsSim_tick {l m : List Act} (d : Nat) (h : actsSim l m = true) :
    actsSim (l.map fun a => if a.paused then a else { a with time := a.time + d })
            (m.map fun a => if a.paused then a else { a with time := a.time + d })
      = true := by
  induction l generalizing m with
  | nil => cases m with
    | nil => simp [actsSim]
    | cons b m2 => simp [actsSim] at h
  | cons a l2 ih => cases m with
    | nil => simp [actsSim] at h
    | cons b m2 =>
      simp only [actsSim, Bool.and_eq_true] at h
      simp only [List.map_cons, actsSim, Bool.and_eq_true]
      exact ⟨actSim_tick d h.1, ih h.2⟩

lemma modelsSim_tick {l m : List (String × MEntry)} (d : Nat)
    (h : modelsSim l m = true) :
    modelsSim
      (l.map fun q => (q.1, { q.2 with acts := q.2.acts.map fun a =>
        if a.paused then a else { a with time := a.time + d } }))
      (m.map fun q => (q.1, { q.2 with acts := q.2.acts.map fun a =>
        if a.paused then a else { a with time := a.time + d } })) = true := by
  induction l generalizing m with
  | nil => cases m with
    | nil => simp [modelsSim]
    | cons b m2 => simp [modelsSim] at h
  | cons a l2 ih => cases m with
    | nil => simp [modelsSim] at h
    | cons b m2 =>
      obtain ⟨pa, ea⟩ := a
      obtain ⟨pb, eb⟩ := b
      simp only [modelsSim, Bool.and_eq_true, beq_iff_eq] at h
      obtain ⟨⟨h1, h2⟩, h3⟩ := h
      subst h1
      simp only [List.map_cons, modelsSim, Bool.and_eq_true, beq_iff_eq]
      refine ⟨⟨trivial, ?_⟩, ih h3⟩
      simp only [entrySim, Bool.and_eq_true, beq_iff_eq] at h2 ⊢
      obtain ⟨⟨⟨⟨g1, g2⟩, g3⟩, g4⟩, g5⟩ := h2
      exact ⟨⟨⟨⟨g1, g2⟩, g3⟩, g4⟩, actsSim_tick d g5⟩

lemma tick_sim {w1 w2 : World} (d : Nat) (h : worldSim w1 w2 = true) :
    worldSim (tick d w1) (tick d w2) = true := by
  obtain ⟨hnow, hst, hm, hsp, hti, hcy, hfc, hat, herr, hlog, hcr⟩ :=
    (worldSim_iff w1 w2).mp h
  unfold tick
  rw [(worldSim_iff _ _)]
  exact ⟨hnow, hst, modelsSim_tick d hm, hsp, hti, hcy, hfc, hat, herr, hlog, hcr⟩

lemma runSteps_sim {w1 w2 : World} (steps : List Step) (h : worldSim w1 w2 = true) :
    worldSim (runSteps steps w1) (runSteps steps w2) = true := by
  induction steps generalizing w1 w2 with
  | nil => exact h
  | cons s rest ih =>
    cases s with
    | adv t => exact ih (advanceTo_sim t h)
    | frame d => exact ih (tick_sim d h)

lemma lookupModel_isSome_iff (ms : List (String × MEntry)) (p : String) :
    (lookupModel ms p).isSome = true ↔ p ∈ keysOf ms := by
  rcases h : lookupModel ms p with - | e
  · simpa using (lookupModel_eq_none_iff ms p).mp h
  · simp only [Option.isSome_some, true_iff]
    exact List.mem_map_of_mem Prod.fst (mem_of_lookupModel_eq h)

lemma foldl_hide_eq (qs : List (String × MEntry)) (v : World)
    (hks : ∀ q ∈ qs, (lookupModel v.models q.1).isSome) :
    qs.foldl (fun acc q => hideModelP1 q.1 acc) v =
      { v with models := qs.foldl (fun ms q => setModel ms q.1 hideEntry) v.models } := by
  induction qs generalizing v with
  | nil => rfl
  | cons q rest ih =>
    obtain ⟨e, he⟩ := Option.isSome_iff_exists.mp (hks q (List.mem_cons_self q rest))
    have hpre : ∀ r ∈ rest, (lookupModel (setModel v.models q.1 hideEntry) r.1).isSome := by
      intro r hr
      rw [lookupModel_isSome_iff, keysOf_setModel, ← lookupModel_isSome_iff]
      exact hks r (List.mem_cons_of_mem q hr)
    rw [List.foldl_cons, hideModelP1_of_lookup he,
        ih { v with models := setModel v.models q.1 hideEntry } hpre,
        List.foldl_cons]

lemma setModel_fold_mark (qs ms : List (String × MEntry)) :
    qs.foldl (fun ms q => setModel ms q.1 hideEntry) ms =
      ms.map fun r => if r.1 ∈ qs.map Prod.fst then (r.1, hideEntry r.2) else r := by
  induction qs generalizing ms with
  | nil =>
    simp only [List.foldl_nil, List.map_nil, List.not_mem_nil, if_false]
    exact (List.map_id ms).symm
  | cons q rest ih =>
    rw [List.foldl_cons, ih]
    unfold setModel
    rw [List.map_map]
    apply List.map_congr_left
    intro r _
    by_cases h1 : r.1 = q.1
    · by_cases h2 : r.1 ∈ rest.map Prod.fst <;>
        simp [h1, h2, Function.comp_def, hideEntry_idem]
    · by_cases h2 : r.1 ∈ rest.map Prod.fst <;>
        simp [h1, h2, Function.comp_def]

lemma hideAllModelsP1_eq (w : World) :
    hideAllModelsP1 w = { w with models := w.models.map fun q => (q.1, hideEntry q.2) } := by
  unfold hideAllModelsP1
  rw [foldl_hide_eq w.models w fun q hq => lookupModel_isSome_of_mem (by simpa using hq)]
  rw [setModel_fold_mark]
  congr 1
  apply List.map_congr_left
  intro r hr
  rw [if_pos (List.mem_map_of_mem Prod.fst hr)]

lemma foldl_show_eq (qs : List (String × MEntry)) (v : World)
    (hks : ∀ q ∈ qs, (lookupModel v.models q.1).isSome) :
    qs.foldl (fun acc (q : String × MEntry) => showModelP1 q.1 q.2.delay acc) v =
      { v with timers := v.timers ++
          qs.map fun q => Timer.mk (v.now + q.2.delay) (Cb.mmShow q.1) } := by
  induction qs generalizing v with
  | nil => simp
  | cons q rest ih =>
    obtain ⟨e, he⟩ := Option.isSome_iff_exists.mp (hks q (List.mem_cons_self q rest))
    rw [List.foldl_cons, showModelP1_of_lookup he]
    rw [ih { v with timers := v.timers ++ [Timer.mk (v.now + q.2.delay) (Cb.mmShow q.1)] }
        (fun r hr => hks r (List.mem_cons_of_mem q hr))]
    simp

lemma resetModelsP1_eq (w : World) :
    resetModelsP1 w =
      { w with models := w.models.map fun q => (q.1, recreateActs (hideEntry q.2)),
               timers := w.timers ++ w.models.map fun q =>
                 Timer.mk (w.now + q.2.delay) (Cb.mmShow q.1) } := by
  simp only [resetModelsP1]
  rw [hideAllModelsP1_eq]
  rw [show ({ w with models := w.models.map fun q => (q.1, hideEntry q.2) } : World).models
        = w.models.map (fun q => (q.1, hideEntry q.2)) from rfl]
  rw [List.map_map]
  have hmm : ((fun (q : String × MEntry) => (q.1, recreateActs q.2)) ∘
        fun (q : String × MEntry) => (q.1, hideEntry q.2))
      = fun q => (q.1, recreateActs (hideEntry q.2)) := by
    funext q
    rfl
  rw [hmm]
  have hks : ∀ q ∈ w.models.map fun q => (q.1, recreateActs (hideEntry q.2)),
      (lookupModel (w.models.map fun q => (q.1, recreateActs (hideEntry q.2))) q.1).isSome := by
    intro q hq
    rw [lookupModel_isSome_iff]
    exact List.mem_map_of_mem Prod.fst hq
  rw [foldl_show_eq _ _ hks]
  dsimp only
  congr 1
  rw [List.map_map]
  congr 1
  apply List.map_congr_left
  intro q _
  show Timer.mk (w.now + (recreateActs (hideEntry q.2)).delay) (Cb.mmShow q.1) = _
  unfold recreateActs
  split <;> rfl

lemma specStopStart_eq (w : World)
    (hv : ∀ q ∈ w.models, (q : String × MEntry).2.optVisible = false) :
    specStart (specStop w) =
      { w with models := w.models.map fun q => (q.1, hideEntry q.2),
               timers := w.models.map fun q =>
                 Timer.mk (w.now + q.2.delay) (Cb.mmShow q.1) } := by
  unfold specStop specStart
  have hall : ∀ q ∈ w.models.map fun q => (q.1, hideEntry q.2),
      (q : String × MEntry).2.optVisible = false := by
    intro q hq
    obtain ⟨r, hr, hrq⟩ := List.mem_map.mp hq
    rw [← hrq]
    exact hv r hr
  rw [show (List.map (fun q => if q.2.optVisible then (q.1, revealEntry q.2) else q)
        (w.models.map fun q => (q.1, hideEntry q.2)))
      = List.map id (w.models.map fun q => (q.1, hideEntry q.2)) from
    List.map_congr_left fun q hq => by rw [if_neg (by simp [hall q hq])]; rfl]
  rw [List.map_id]
  rw [List.filter_eq_self.mpr fun q hq => by simp [hall q hq]]
  rw [List.nil_append, List.map_map]
  rfl

lemma actsSim_zero_paused (l : List Act) :
    actsSim (l.map fun _ => { paused := true, time := 0 })
            (l.map fun a => { a with paused := true }) = true := by
  induction l with
  | nil => simp [actsSim]
  | cons a l2 ih =>
    simp only [List.map_cons, actsSim, Bool.and_eq_true]
    exact ⟨by simp [actSim], ih⟩

lemma actsSim_refl (l : List Act) : actsSim l l = true := by
  induction l with
  | nil => simp [actsSim]
  | cons a l2 ih =>
    simp only [actsSim, Bool.and_eq_true]
    exact ⟨by simp [actSim], ih⟩

lemma entrySim_recreate_hide (e : MEntry) :
    entrySim (recreateActs (hideEntry e)) (hideEntry e) = true := by
  unfold recreateActs
  split
  · simp only [entrySim, Bool.and_eq_true, beq_iff_eq]
    exact ⟨⟨⟨⟨trivial, trivial⟩, trivial⟩, trivial⟩, actsSim_refl _⟩
  · simp only [entrySim, Bool.and_eq_true, beq_iff_eq]
    refine ⟨⟨⟨⟨trivial, trivial⟩, trivial⟩, trivial⟩, ?_⟩
    have hh : (hideEntry e).acts = e.acts.map fun a => { a with paused := true } := rfl
    rw [hh, List.map_map]
    exact actsSim_zero_paused e.acts

lemma modelsSim_recreate (l : List (String × MEntry)) :
    modelsSim (l.map fun q => (q.1, recreateActs (hideEntry q.2)))
              (l.map fun q => (q.1, hideEntry q.2)) = true := by
  induction l with
  | nil => simp [modelsSim]
  | cons a l2 ih =>
    obtain ⟨pa, ea⟩ := a
    simp only [List.map_cons, modelsSim, Bool.and_eq_true, beq_iff_eq]
    exact ⟨⟨trivial, entrySim_recreate_hide ea⟩, ih⟩

lemma reset_vs_spec_init (w : World) (hq : w.timers = [])
    (hv : ∀ q ∈ w.models, (q : String × MEntry).2.optVisible = false) :
    worldSim (resetModelsP1 w) (specStart (specStop w)) = true := by
  rw [resetModelsP1_eq, specStopStart_eq w hv, hq]
  rw [(worldSim_iff _ _)]
  exact ⟨rfl, rfl, modelsSim_recreate w.models, rfl, by simp, rfl, rfl, rfl, rfl,
    rfl, rfl⟩

/-- C4 (amended).  On a state with no pending reveal timeouts and no
initially-visible entries, `resetModels` and the spec-modelled
`stop(); start()` stay `worldSim`-related under every subsequent sequence of
clock advances and frame ticks: every observable component agrees — in
particular asset visibilities and spotlight states at every later time, and
the positions of all playing clips — except that the stored positions of
still-paused (not yet re-revealed) clips may differ, because `resetModels`
zeroes them immediately by recreating the actions while the spec's `stop`
pauses them in place.  Without the no-pending-timeout hypothesis the
equivalence fails: `resetModels` cancels nothing, so a reveal pending from
the previous run still fires into the restarted run (see the
counterexample). -/
theorem resetModels_equiv_stop_start (w : World)
    (hq : w.timers = [])
    (hv : ∀ q ∈ w.models, (q : String × MEntry).2.optVisible = false)
    (steps : List Step) :
    worldSim (runSteps steps (resetModelsP1 w))
             (runSteps steps (specStart (specStop w))) = true ∧
    (runSteps steps (resetModelsP1 w)).models.map (fun q => (q.1, q.2.visible))
      = (runSteps steps (specStart (specStop w))).models.map (fun q => (q.1, q.2.visible)) ∧
    (runSteps steps (resetModelsP1 w)).spots
      = (runSteps steps (specStart (specStop w))).spots := by
  have h := runSteps_sim steps (reset_vs_spec_init w hq hv)
  have hc := (worldSim_iff _ _).mp h
  exact ⟨h, modelsSim_vis hc.2.2.1, hc.2.2.2.1⟩

/-- Counterexample to C4 as stated.  First scenario: a reveal scheduled at
1000 ms is still pending when `resetModels` runs at 500 ms; `resetModels`
does not cancel it, so the model is visible at 1000 ms, while after an
explicit stop-then-start at 500 ms it is still hidden at 1000 ms (its reveal
comes at 1500 ms).  Second scenario: a clip playing at position 7 when
`resetModels` runs is zeroed immediately, while stop-then-start leaves the
paused clip at position 7 — the claimed equality of clip playback positions
at time T fails too. -/
theorem resetModels_not_stop_start_cex :
    ((lookupModel (advanceTo 1000 (resetModelsP1 (advanceTo 500
        ((loadModelP1 (fun _ => 1) [] "m.fbx" { visible := false, delay := 1000 }
          {}).toOption.getD {})))).models "m.fbx").map MEntry.visible = some true ∧
     (lookupModel (advanceTo 1000 (specStart (specStop (advanceTo 500
        ((loadModelP1 (fun _ => 1) [] "m.fbx" { visible := false, delay := 1000 }
          {}).toOption.getD {}))))).models "m.fbx").map MEntry.visible = some false) ∧
    ((lookupModel (resetModelsP1 (tick 7 (advanceTo 100
        ((loadModelP1 (fun _ => 1) [] "n.fbx" { visible := false, delay := 100 }
          {}).toOption.getD {})))).models "n.fbx").map (fun e => e.acts.map Act.time)
        = some [0] ∧
     (lookupModel (specStart (specStop (tick 7 (advanceTo 100
        ((loadModelP1 (fun _ => 1) [] "n.fbx" { visible := false, delay := 100 }
          {}).toOption.getD {}))))).models "n.fbx").map (fun e => e.acts.map Act.time)
        = some [7]) := by
  decide

/-- Witness for C4's amended theorem: a world with one loaded hidden entry
whose reveal has already fired and been consumed (no pending timeouts),
evolved by an advance to 2000 and a 16 ms frame tick. -/
theorem resetModels_equiv_stop_start_witness :
    (worldSim
      (runSteps [Step.adv 2000, Step.frame 16] (resetModelsP1 (advanceTo 1000
        ((loadModelP1 (fun _ => 1) [] "w.fbx" { visible := false, delay := 1000 }
          {}).toOption.getD {}))))
      (runSteps [Step.adv 2000, Step.frame 16] (specStart (specStop (advanceTo 1000
        ((loadModelP1 (fun _ => 1) [] "w.fbx" { visible := false, delay := 1000 }
          {}).toOption.getD {}))))) = true) ∧
    (runSteps [Step.adv 2000, Step.frame 16] (resetModelsP1 (advanceTo 1000
        ((loadModelP1 (fun _ => 1) [] "w.fbx" { visible := false, delay := 1000 }
          {}).toOption.getD {})))).models.map (fun q => (q.1, q.2.visible))
      = (runSteps [Step.adv 2000, Step.frame 16] (specStart (specStop (advanceTo 1000
        ((loadModelP1 (fun _ => 1) [] "w.fbx" { visible := false, delay := 1000 }
          {}).toOption.getD {}))))).models.map (fun q => (q.1, q.2.visible)) ∧
    (runSteps [Step.adv 2000, Step.frame 16] (resetModelsP1 (advanceTo 1000
        ((loadModelP1 (fun _ => 1) [] "w.fbx" { visible := false, delay := 1000 }
          {}).toOption.getD {})))).spots
      = (runSteps [Step.adv 2000, Step.frame 16] (specStart (specStop (advanceTo 1000
        ((loadModelP1 (fun _ => 1) [] "w.fbx" { visible := false, delay := 1000 }
          {}).toOption.getD {}))))).spots :=
  resetModels_equiv_stop_start _ (by decide) (by decide) [Step.adv 2000, Step.frame 16]

/-! ## Start schedules every loaded entry exactly once (C2) -/

/-- The `initializeAR` load loop leaves the sequencer bookkeeping untouched. -/
lemma seqLoadStep_const (clips : String → Nat) (fail : List String) (w : World)
    (c : Config) :
    (seqLoadStep clips fail w c).started = w.started ∧
    (seqLoadStep clips fail w c).timers = w.timers ∧
    (seqLoadStep clips fail w c).now = w.now ∧
    (seqLoadStep clips fail w c).log = w.log := by
  simp only [seqLoadStep]
  split
  · exact ⟨rfl, rfl, rfl, rfl⟩
  · split
    · exact ⟨rfl, rfl, rfl, rfl⟩
    · split <;> exact ⟨rfl, rfl, rfl, rfl⟩

lemma seqLoadAll_const (clips : String → Nat) (fail : List String) (cfgs : List Config)
    (w : World) :
    (cfgs.foldl (seqLoadStep clips fail) w).started = w.started ∧
    (cfgs.foldl (seqLoadStep clips fail) w).timers = w.timers ∧
    (cfgs.foldl (seqLoadStep clips fail) w).now = w.now ∧
    (cfgs.foldl (seqLoadStep clips fail) w).log = w.log := by
  induction cfgs generalizing w with
  | nil => exact ⟨rfl, rfl, rfl, rfl⟩
  | cons c rest ih =>
    obtain ⟨i1, i2, i3, i4⟩ := ih (seqLoadStep clips fail w c)
    obtain ⟨s1, s2, s3, s4⟩ := seqLoadStep_const clips fail w c
    rw [List.foldl_cons]
    exact ⟨i1.trans s1, i2.trans s2, i3.trans s3, i4.trans s4⟩

/-- Where a registry entry after the load loop comes from: it was already
there, or some enabled, successfully fetched config created it (hidden,
with paused actions at position zero and the config's delay). -/
lemma seqLoadAll_models_mem {clips : String → Nat} {fail : List String}
    {cfgs : List Config} {w : World} {p : String} {e : MEntry}
    (h : (p, e) ∈ (cfgs.foldl (seqLoadStep clips fail) w).models) :
    (p, e) ∈ w.models ∨
    (e.visible = false ∧ e.optVisible = false ∧
     e.acts = List.replicate (clips p) { paused := true, time := 0 } ∧
     ∃ c ∈ cfgs, c.path = p ∧ c.enabled = true ∧ c.path ∉ fail ∧ e.delay = c.delay) := by
  induction cfgs generalizing w with
  | nil => exact Or.inl h
  | cons c rest ih =>
    rw [List.foldl_cons] at h
    rcases ih h with hmem | ⟨h1, h2, h3, c2, hc2, h4⟩
    · simp only [seqLoadStep] at hmem
      split at hmem
      · exact Or.inl hmem
      · split at hmem
        · exact Or.inl hmem
        · rename_i hen hfa
          split at hmem <;>
          · rcases mem_insertModel hmem with hm | hm
            · exact Or.inl hm
            · right
              obtain ⟨hp, he⟩ := Prod.mk.injEq .. |>.mp hm
              subst hp
              subst he
              refine ⟨rfl, rfl, rfl, c, List.mem_cons_self c rest, rfl, ?_, hfa, rfl⟩
              simpa using hen
    · exact Or.inr ⟨h1, h2, h3, c2, List.mem_cons_of_mem c hc2, h4⟩

/-- Where a spotlight after the load loop comes from. -/
lemma seqLoadAll_spots_mem {clips : String → Nat} {fail : List String}
    {cfgs : List Config} {w : World} {s : Spot}
    (h : s ∈ (cfgs.foldl (seqLoadStep clips fail) w).spots) :
    s ∈ w.spots ∨
    (s.visible = false ∧ ∃ c ∈ cfgs, c.path = s.path ∧ s.delay = c.delay) := by
  induction cfgs generalizing w with
  | nil => exact Or.inl h
  | cons c rest ih =>
    rw [List.foldl_cons] at h
    rcases ih h with hmem | ⟨h1, c2, hc2, h2⟩
    · simp only [seqLoadStep] at hmem
      split at hmem
      · exact Or.inl hmem
      · split at hmem
        · exact Or.inl hmem
        · split at hmem
          · exact Or.inl hmem
          · rcases List.mem_append.mp hmem with hm | hm
            · exact Or.inl hm
            · right
              simp only [List.mem_singleton] at hm
              subst hm
              exact ⟨rfl, c, List.mem_cons_self c rest, rfl, rfl⟩
    · exact Or.inr ⟨h1, c2, List.mem_cons_of_mem c hc2, h2⟩

/-- The load loop keeps the registry keys duplicate-free. -/
lemma seqLoadAll_keys_nodup {clips : String → Nat} {fail : List String}
    {cfgs : List Config} {w : World} (h : (keysOf w.models).Nodup) :
    (keysOf (cfgs.foldl (seqLoadStep clips fail) w).models).Nodup := by
  induction cfgs generalizing w with
  | nil => exact h
  | cons c rest ih =>
    rw [List.foldl_cons]
    apply ih
    simp only [seqLoadStep]
    split
    · exact h
    · split
      · exact h
      · split <;> exact keysOf_nodup_insertModel _ _ _ h

lemma hideResetEntry_id {e : MEntry} (hv : e.visible = false)
    (ha : ∀ a ∈ e.acts, a = { paused := true, time := 0 }) : hideResetEntry e = e := by
  unfold hideResetEntry
  obtain ⟨oid, vis, del, opt, acts⟩ := e
  simp only at hv ha ⊢
  subst hv
  congr 1
  rw [show (List.map (fun _ => ({ paused := true, time := 0 } : Act)) acts)
        = List.map id acts from List.map_congr_left fun a haa => ((ha a haa) ▸ rfl)]
  exact List.map_id acts

/-- `startAnimationSequence` on a freshly loaded session (everything already
hidden and reset): the hide loops change nothing and the call just raises
the flag and schedules one reveal timeout per model followed by one per
spotlight. -/
lemma startSeq_eq_of_fresh (w : World) (h1 : w.started = false)
    (h2 : ∀ q ∈ w.models, (q : String × MEntry).2.visible = false ∧
      ∀ a ∈ (q : String × MEntry).2.acts, a = { paused := true, time := 0 })
    (h3 : ∀ s ∈ w.spots, (s : Spot).visible = false) :
    startSeq w =
      { w with
          started := true,
          timers := (w.models.map fun q => Timer.mk (w.now + q.2.delay) (Cb.seqModel q.1)) ++
            (w.spots.map fun s => Timer.mk (w.now + s.delay) (Cb.seqSpot s.path)) } := by
  have hm : (w.models.map fun q => (q.1, hideResetEntry q.2)) = w.models := by
    conv_rhs => rw [← List.map_id w.models]
    apply List.map_congr_left
    intro q hq
    obtain ⟨p, e⟩ := q
    obtain ⟨hv, ha⟩ := h2 (p, e) hq
    simp only [id]
    rw [hideResetEntry_id hv ha]
  have hs : (w.spots.map fun s => { s with visible := false }) = w.spots := by
    conv_rhs => rw [← List.map_id w.spots]
    apply List.map_congr_left
    intro s hq
    obtain ⟨sp, sv, sd⟩ := s
    have hv := h3 ⟨sp, sv, sd⟩ hq
    simp only at hv
    simp [hv]
  simp only [startSeq]
  rw [if_neg (by simp [h1])]
  rw [hm, hs]

/-- The model for `p` is present, visible, and all its actions are playing
from position zero. -/
def revealedIn (w : World) (p : String) : Prop :=
  ∃ e, lookupModel w.models p = some e ∧ e.visible = true ∧
    ∀ a ∈ e.acts, a.paused = false ∧ a.time = 0

lemma revealEntry_revealed (e : MEntry) :
    (revealEntry e).visible = true ∧
    ∀ a ∈ (revealEntry e).acts, a.paused = false ∧ a.time = 0 := by
  refine ⟨rfl, ?_⟩
  intro a ha
  simp only [revealEntry] at ha
  simp only [List.mem_map] at ha
  obtain ⟨b, -, hb⟩ := ha
  simp [← hb]

lemma fire_seqModel_run {w : World} (hst : w.started = true) (ft : Nat) (p : String) :
    fire w (Timer.mk ft (Cb.seqModel p)) =
      { w with models := setModel w.models p revealEntry, log := w.log ++ [Cb.seqModel p] } := by
  simp only [fire]
  rw [if_pos (by simp [hst])]

lemma fire_seqSpot_run {w : World} (hst : w.started = true) (ft : Nat) (p : String) :
    fire w (Timer.mk ft (Cb.seqSpot p)) =
      { w with spots := setSpotVisible w.spots p true, log := w.log ++ [Cb.seqSpot p] } := by
  simp only [fire]
  rw [if_pos (by simp [hst])]

lemma revealedIn_of_models {w v : World} {p : String} (h : revealedIn w p)
    (hm : v.models = w.models) : revealedIn v p := by
  obtain ⟨e, he, hv, ha⟩ := h
  exact ⟨e, by rw [hm]; exact he, hv, ha⟩

lemma revealedIn_setModel_self {w : World} {p : String} {e : MEntry}
    (he : lookupModel w.models p = some e) {v : World}
    (hm : v.models = setModel w.models p revealEntry) : revealedIn v p := by
  refine ⟨revealEntry e, ?_, (revealEntry_revealed e).1, (revealEntry_revealed e).2⟩
  rw [hm, lookupModel_setModel_self, he]
  rfl

lemma revealedIn_setModel_ne {w : World} {p q : String} (h : revealedIn w p)
    (hq : q ≠ p) {v : World} (hm : v.models = setModel w.models q revealEntry) :
    revealedIn v p := by
  obtain ⟨e, he, hv, ha⟩ := h
  exact ⟨e, by rw [hm, lookupModel_setModel_ne _ _ (Ne.symm hq)]; exact he, hv, ha⟩

lemma fire_preserves_revealed {w : World} {p : String} (t : Timer)
    (h : revealedIn w p) : revealedIn (fire w t) p := by
  rcases t with ⟨ft, cb⟩
  cases cb with
  | seqModel q =>
    by_cases hst : w.started = true
    · rw [fire_seqModel_run hst]
      by_cases hq : q = p
      · subst hq
        obtain ⟨e, he, -, -⟩ := h
        exact revealedIn_setModel_self he rfl
      · exact revealedIn_setModel_ne h hq rfl
    · simp only [fire]
      rw [if_neg (by simpa using hst)]
      exact h
  | seqSpot q =>
    by_cases hst : w.started = true
    · rw [fire_seqSpot_run hst]
      exact revealedIn_of_models h rfl
    · simp only [fire]
      rw [if_neg (by simpa using hst)]
      exact h
  | mmShow q =>
    rcases hl : lookupModel w.models q with - | f
    · rw [fire_mmShow_none hl]
      exact revealedIn_of_models h rfl
    · rw [fire_mmShow_some hl]
      by_cases hq : q = p
      · subst hq
        obtain ⟨e, he, -, -⟩ := h
        exact revealedIn_setModel_self he rfl
      · exact revealedIn_setModel_ne h hq rfl
  | testSpot q =>
    simp only [fire]
    exact revealedIn_of_models h rfl

lemma foldl_fire_preserves_revealed {w : World} {p : String} (L : List Timer)
    (h : revealedIn w p) : revealedIn (L.foldl fire w) p := by
  induction L generalizing w with
  | nil => exact h
  | cons t rest ih => exact ih (fire_preserves_revealed t h)

lemma fire_isSome {w : World} {p : String} (t : Timer)
    (h : (lookupModel w.models p).isSome) : (lookupModel (fire w t).models p).isSome := by
  rw [lookupModel_isSome_iff, fire_keysOf, ← lookupModel_isSome_iff]
  exact h

lemma fire_seqModel_reveals {w : World} {p : String} (ft : Nat)
    (hst : w.started = true) (h : (lookupModel w.models p).isSome) :
    revealedIn (fire w (Timer.mk ft (Cb.seqModel p))) p := by
  obtain ⟨e, he⟩ := Option.isSome_iff_exists.mp h
  rw [fire_seqModel_run hst]
  exact revealedIn_setModel_self he rfl

lemma foldl_fire_reveals {p : String} (L : List Timer) :
    ∀ (w : World), w.started = true → (lookupModel w.models p).isSome →
    (∃ ft, Timer.mk ft (Cb.seqModel p) ∈ L) → revealedIn (L.foldl fire w) p := by
  induction L with
  | nil =>
    intro w _ _ hmem
    obtain ⟨ft, hft⟩ := hmem
    simp at hft
  | cons t rest ih =>
    intro w hst hsome hmem
    obtain ⟨ft, hft⟩ := hmem
    rcases List.mem_cons.mp hft with h1 | h1
    · rw [List.foldl_cons, ← h1]
      exact foldl_fire_preserves_revealed rest (fire_seqModel_reveals ft hst hsome)
    · rw [List.foldl_cons]
      exact ih (fire w t) (by rw [fire_started]; exact hst) (fire_isSome t hsome)
        ⟨ft, h1⟩

/-- While the sequence is running, a batch of guarded sequencer callbacks
appends exactly its own callbacks to the reveal history. -/
lemma foldl_fire_log {L : List Timer} :
    ∀ {w : World}, w.started = true → (∀ tm ∈ L, (tm : Timer).cb.isSeq = true) →
    (L.foldl fire w).log = w.log ++ L.map Timer.cb := by
  induction L with
  | nil =>
    intro w _ _
    simp
  | cons t rest ih =>
    intro w hst hg
    rw [List.foldl_cons]
    have ht := hg t (List.mem_cons_self t rest)
    have hfl : (fire w t).log = w.log ++ [t.cb] := by
      rcases t with ⟨ft, cb⟩
      cases cb with
      | seqModel p => rw [fire_seqModel_run hst]
      | seqSpot p => rw [fire_seqSpot_run hst]
      | mmShow p => simp [Cb.isSeq] at ht
      | testSpot p => simp [Cb.isSeq] at ht
    rw [ih (by rw [fire_started]; exact hst)
        (fun tm htm => hg tm (List.mem_cons_of_mem t htm)), hfl]
    simp

lemma filter_model_timers (l : List (String × MEntry)) (n : Nat) {p : String} {e : MEntry}
    (hnd : (keysOf l).Nodup) (hmem : (p, e) ∈ l) :
    (l.map fun q => Timer.mk (n + q.2.delay) (Cb.seqModel q.1)).filter
        (fun tm => tm.cb = Cb.seqModel p)
      = [Timer.mk (n + e.delay) (Cb.seqModel p)] := by
  induction l with
  | nil => simp at hmem
  | cons q rest ih =>
    obtain ⟨s, f⟩ := q
    simp only [keysOf, List.map_cons, List.nodup_cons] at hnd
    by_cases hs : s = p
    · subst hs
      have hef : e = f := by
        rcases List.mem_cons.mp hmem with h1 | h1
        · exact (Prod.mk.injEq .. |>.mp h1).2
        · exact absurd (by simpa [keysOf] using List.mem_map_of_mem Prod.fst h1) hnd.1
      subst hef
      rw [List.map_cons]
      rw [List.filter_cons_of_pos (by simp)]
      rw [List.filter_eq_nil_iff.mpr ?_]
      · intro tm htm
        obtain ⟨r, hr, hrt⟩ := List.mem_map.mp htm
        have : r.1 ≠ s := by
          intro hc
          exact hnd.1 (by simpa [keysOf, ← hc] using List.mem_map_of_mem Prod.fst hr)
        simp [← hrt, this]
    · have hmem2 : (p, e) ∈ rest := by
        rcases List.mem_cons.mp hmem with h1 | h1
        · exact absurd (Prod.mk.injEq .. |>.mp h1).1.symm hs
        · exact h1
      rw [List.map_cons, List.filter_cons_of_neg (by simp [hs])]
      exact ih (by simpa [keysOf] using hnd.2) hmem2

lemma count_cb_model_timers (l : List (String × MEntry)) (n : Nat) (p : String) :
    ((l.map fun q => Timer.mk (n + q.2.delay) (Cb.seqModel q.1)).map Timer.cb).count
        (Cb.seqModel p) = (keysOf l).count p := by
  rw [List.map_map]
  induction l with
  | nil => simp [keysOf]
  | cons q rest ih =>
    simp only [List.map_cons, List.count_cons, keysOf] at ih ⊢
    rw [ih]
    congr 1
    simp

lemma count_cb_spot_timers (l : List Spot) (n : Nat) (p : String) :
    ((l.map fun s => Timer.mk (n + s.delay) (Cb.seqSpot s.path)).map Timer.cb).count
        (Cb.seqModel p) = 0 := by
  rw [List.map_map]
  induction l with
  | nil => simp
  | cons s rest ih =>
    simp only [List.map_cons, List.count_cons] at ih ⊢
    rw [ih]
    simp

/-- C2.  From a session loaded by `initializeAR` over any configuration list
with distinct paths and all loads succeeding: `startAnimationSequence`
schedules, for every loaded (enabled) entry, exactly one one-shot callback
due at start time + the entry's delay; once the clock passes every delay,
every loaded entry is visible with all its clips at position zero and
playing, its reveal appears exactly once in the history, and no timer
remains pending; a disabled entry is never loaded, never scheduled, and
never revealed. -/
theorem startSeq_reveals_enabled_exactly_once (clips : String → Nat)
    (cfgs : List Config) (T : Nat) (w0 w1 w2 : World)
    (hnd : (cfgs.map Config.path).Nodup)
    (hT : ∀ c ∈ cfgs, c.delay ≤ T)
    (h0 : w0 = seqInitAR clips [] cfgs)
    (h1 : w1 = startSeq w0)
    (h2 : w2 = advanceTo T w1) :
    (∀ p e, (p, e) ∈ w0.models →
       w1.timers.filter (fun tm => tm.cb = Cb.seqModel p)
         = [Timer.mk (w1.now + e.delay) (Cb.seqModel p)]) ∧
    (∀ p e, (p, e) ∈ w0.models →
       revealedIn w2 p ∧ w2.log.count (Cb.seqModel p) = 1) ∧
    w2.timers = [] ∧
    (∀ c ∈ cfgs, c.enabled = false →
       lookupModel w0.models c.path = none ∧
       (∀ tm ∈ w1.timers, (tm : Timer).cb ≠ Cb.seqModel c.path) ∧
       Cb.seqModel c.path ∉ w2.log) := by
  have hconst := seqLoadAll_const clips [] cfgs {}
  have hst0 : w0.started = false := by rw [h0]; exact hconst.1
  have hnow0 : w0.now = 0 := by rw [h0]; exact hconst.2.2.1
  have hlog0 : w0.log = [] := by rw [h0]; exact hconst.2.2.2
  have hm0 : ∀ {p : String} {e : MEntry}, (p, e) ∈ w0.models →
      e.visible = false ∧ e.optVisible = false ∧
      e.acts = List.replicate (clips p) { paused := true, time := 0 } ∧
      ∃ c ∈ cfgs, c.path = p ∧ c.enabled = true ∧ e.delay = c.delay := by
    intro p e hmem
    rw [h0] at hmem
    rcases seqLoadAll_models_mem hmem with hc | ⟨a1, a2, a3, c, hc, a4, a5, -, a6⟩
    · simp at hc
    · exact ⟨a1, a2, a3, c, hc, a4, a5, a6⟩
  have hs0 : ∀ s ∈ w0.spots, (s : Spot).visible = false ∧
      ∃ c ∈ cfgs, c.path = (s : Spot).path ∧ (s : Spot).delay = c.delay := by
    intro s hmem
    rw [h0] at hmem
    rcases seqLoadAll_spots_mem hmem with hc | ⟨a1, c, hc, a2, a3⟩
    · simp at hc
    · exact ⟨a1, c, hc, a2, a3⟩
  have hnd0 : (keysOf w0.models).Nodup := by
    rw [h0]
    exact seqLoadAll_keys_nodup (by simp [keysOf])
  have hw1 : w1 =
      { w0 with
          started := true,
          timers := (w0.models.map fun q => Timer.mk (w0.now + q.2.delay) (Cb.seqModel q.1)) ++
            (w0.spots.map fun s => Timer.mk (w0.now + s.delay) (Cb.seqSpot s.path)) } := by
    rw [h1, startSeq_eq_of_fresh w0 hst0 ?_ (fun s hs => (hs0 s hs).1)]
    intro q hq
    obtain ⟨p, e⟩ := q
    obtain ⟨b1, -, b3, -⟩ := hm0 hq
    exact ⟨b1, fun a ha => List.eq_of_mem_replicate (b3 ▸ ha)⟩
  have hw1timers : w1.timers =
      (w0.models.map fun q => Timer.mk (w0.now + q.2.delay) (Cb.seqModel q.1)) ++
      (w0.spots.map fun s => Timer.mk (w0.now + s.delay) (Cb.seqSpot s.path)) := by
    rw [hw1]
  have hw1now : w1.now = w0.now := by rw [hw1]
  have hw1st : w1.started = true := by rw [hw1]
  have hw1models : w1.models = w0.models := by rw [hw1]
  have hw1log : w1.log = [] := by rw [hw1]; exact hlog0
  -- every scheduled timer is due by time T
  have hall : ∀ tm ∈ w1.timers, (tm : Timer).fireAt ≤ T := by
    intro tm htm
    rw [hw1timers] at htm
    rcases List.mem_append.mp htm with hmt | hmt
    · obtain ⟨q, hq, hqt⟩ := List.mem_map.mp hmt
      obtain ⟨p, e⟩ := q
      obtain ⟨-, -, -, c, hc, -, -, a6⟩ := hm0 hq
      rw [← hqt]
      simpa [hnow0, a6] using hT c hc
    · obtain ⟨s, hs, hst⟩ := List.mem_map.mp hmt
      obtain ⟨-, c, hc, -, a3⟩ := hs0 s hs
      rw [← hst]
      simpa [hnow0, a3] using hT c hc
  have hguard : ∀ tm ∈ w1.timers, (tm : Timer).cb.isSeq = true := by
    intro tm htm
    rw [hw1timers] at htm
    rcases List.mem_append.mp htm with hmt | hmt
    · obtain ⟨q, -, hqt⟩ := List.mem_map.mp hmt
      rw [← hqt]
      rfl
    · obtain ⟨s, -, hst⟩ := List.mem_map.mp hmt
      rw [← hst]
      rfl
  -- the advance fires everything
  have hw2 : w2 = (dueTimers T w1.timers).foldl fire { w1 with now := T, timers := [] } := by
    rw [h2]
    unfold advanceTo
    rw [if_neg (by rw [hw1now, hnow0]; exact Nat.not_lt_zero T)]
    rw [show w1.timers.filter (fun tm => ¬ (tm : Timer).fireAt ≤ T) = [] from
      List.filter_eq_nil_iff.mpr (fun tm htm => by simp [hall tm htm])]
  have hdueperm : List.Perm (dueTimers T w1.timers) w1.timers := by
    unfold dueTimers
    rw [List.filter_eq_self.mpr (fun tm htm => by simpa using hall tm htm)]
    exact List.perm_insertionSort _ _
  have hbst : ({ w1 with now := T, timers := [] } : World).started = true := hw1st
  refine ⟨?_, ?_, ?_, ?_⟩
  · -- (a) exactly one pending callback per loaded entry
    intro p e hmem
    rw [hw1timers, List.filter_append]
    rw [filter_model_timers w0.models w0.now hnd0 hmem]
    rw [List.filter_eq_nil_iff.mpr ?_]
    · rw [hw1now]
      simp
    · intro tm htm
      obtain ⟨s, -, hst⟩ := List.mem_map.mp htm
      simp [← hst]
  · -- (b) every loaded entry revealed exactly once
    intro p e hmem
    constructor
    · rw [hw2]
      apply foldl_fire_reveals _ _ hbst
      · rw [show ({ w1 with now := T, timers := [] } : World).models = w1.models from rfl,
          hw1models]
        exact lookupModel_isSome_of_mem hmem
      · refine ⟨w0.now + e.delay, hdueperm.mem_iff.mpr ?_⟩
        rw [hw1timers]
        exact List.mem_append_left _ (List.mem_map_of_mem _ hmem)
    · rw [hw2]
      rw [foldl_fire_log hbst (fun tm htm => hguard tm (hdueperm.mem_iff.mp htm))]
      rw [show ({ w1 with now := T, timers := [] } : World).log = w1.log from rfl, hw1log]
      rw [List.nil_append]
      rw [(hdueperm.map Timer.cb).count_eq]
      rw [hw1timers, List.map_append, List.count_append]
      rw [count_cb_model_timers, count_cb_spot_timers]
      rw [List.count_eq_one_of_mem hnd0 (List.mem_map_of_mem Prod.fst hmem)]
  · -- all timers consumed
    rw [hw2, foldl_fire_timers]
  · -- (d) disabled entries
    intro c hc hcen
    have hlook : lookupModel w0.models c.path = none := by
      rcases hl : lookupModel w0.models c.path with - | e
      · rfl
      · obtain ⟨-, -, -, c2, hc2, b4, b5, -⟩ := hm0 (mem_of_lookupModel_eq hl)
        have : c2 = c := List.inj_on_of_nodup_map hnd hc2 hc b4
        rw [this] at b5
        rw [b5] at hcen
        simp at hcen
    have hnotm : ∀ tm ∈ w1.timers, (tm : Timer).cb ≠ Cb.seqModel c.path := by
      intro tm htm hceq
      rw [hw1timers] at htm
      rcases List.mem_append.mp htm with hmt | hmt
      · obtain ⟨q, hq, hqt⟩ := List.mem_map.mp hmt
        rw [← hqt] at hceq
        simp only [Cb.seqModel.injEq] at hceq
        have := lookupModel_isSome_of_mem (p := q.1) (e := q.2)
          (by simpa using hq)
        rw [hceq, hlook] at this
        simp at this
      · obtain ⟨s, -, hst⟩ := List.mem_map.mp hmt
        rw [← hst] at hceq
        simp at hceq
    refine ⟨hlook, hnotm, ?_⟩
    intro hmem
    rw [hw2, foldl_fire_log hbst (fun tm htm => hguard tm (hdueperm.mem_iff.mp htm))] at hmem
    rw [show ({ w1 with now := T, timers := [] } : World).log = w1.log from rfl,
      hw1log, List.nil_append] at hmem
    obtain ⟨tm, htm, hcb⟩ := List.mem_map.mp hmem
    exact hnotm tm (hdueperm.mem_iff.mp htm) hcb

/-- The spec's §8 scenario list: A at delay 0, B at delay 1000, and a
disabled C at delay 500. -/
def cfgsW2 : List Config :=
  [{ path := "a.fbx", delay := 0, visible := false, enabled := true },
   { path := "b.fbx", delay := 1000, visible := false, enabled := true },
   { path := "c.fbx", delay := 500, visible := false, enabled := false }]

/-- The session loaded from that list. -/
def initW2 : World := seqInitAR (fun _ => 1) [] cfgsW2

/-- Witness for C2 on the concrete scenario: entry A gets exactly one
timeout at start + 0, is revealed exactly once by time 1000, all timers are
consumed, and the disabled entry C is never loaded nor revealed. -/
theorem startSeq_reveals_enabled_exactly_once_witness :
    (startSeq initW2).timers.filter (fun tm => tm.cb = Cb.seqModel "a.fbx")
      = [Timer.mk ((startSeq initW2).now + 0) (Cb.seqModel "a.fbx")] ∧
    revealedIn (advanceTo 1000 (startSeq initW2)) "a.fbx" ∧
    (advanceTo 1000 (startSeq initW2)).log.count (Cb.seqModel "a.fbx") = 1 ∧
    (advanceTo 1000 (startSeq initW2)).timers = [] ∧
    lookupModel initW2.models "c.fbx" = none ∧
    Cb.seqModel "c.fbx" ∉ (advanceTo 1000 (startSeq initW2)).log := by
  have h := startSeq_reveals_enabled_exactly_once (fun _ => 1) cfgsW2 1000
    initW2 (startSeq initW2) (advanceTo 1000 (startSeq initW2))
    (by decide) (by decide) rfl rfl rfl
  have hmem : ("a.fbx",
      ({ objId := 1, visible := false, delay := 0, optVisible := false,
         acts := [{ paused := true, time := 0 }] } : MEntry)) ∈ initW2.models := by
    decide
  have hc : ({ path := "c.fbx", delay := 500, visible := false,
               enabled := false } : Config) ∈ cfgsW2 := by
    decide
  exact ⟨h.1 _ _ hmem, (h.2.1 _ _ hmem).1, (h.2.1 _ _ hmem).2, h.2.2.1,
    (h.2.2.2 _ hc rfl).1, (h.2.2.2 _ hc rfl).2.2⟩

/-! ## Per-entry failure isolation in loadTestModels (C7) -/

lemma fire_mmShow_reveals {w : World} {p : String} (ft : Nat)
    (h : (lookupModel w.models p).isSome) :
    revealedIn (fire w (Timer.mk ft (Cb.mmShow p))) p := by
  obtain ⟨e, he⟩ := Option.isSome_iff_exists.mp h
  rw [fire_mmShow_some he]
  exact revealedIn_setModel_self he rfl

lemma foldl_fire_reveals_mm {p : String} (L : List Timer) :
    ∀ (w : World), (lookupModel w.models p).isSome →
    (∃ ft, Timer.mk ft (Cb.mmShow p) ∈ L) → revealedIn (L.foldl fire w) p := by
  induction L with
  | nil =>
    intro w _ hmem
    obtain ⟨ft, hft⟩ := hmem
    simp at hft
  | cons t rest ih =>
    intro w hsome hmem
    obtain ⟨ft, hft⟩ := hmem
    rcases List.mem_cons.mp hft with hh | hh
    · rw [List.foldl_cons, ← hh]
      exact foldl_fire_preserves_revealed rest (fire_mmShow_reveals ft hsome)
    · rw [List.foldl_cons]
      exact ih (fire w t) (fire_isSome t hsome) ⟨ft, hh⟩

lemma fire_absent_no_reveal {w : World} {p : String} (t : Timer)
    (h : lookupModel w.models p = none) :
    lookupModel (fire w t).models p = none ∧
    (fire w t).log.count (Cb.mmShow p) = w.log.count (Cb.mmShow p) := by
  have hkeys : lookupModel (fire w t).models p = none := by
    rw [lookupModel_eq_none_iff, fire_keysOf, ← lookupModel_eq_none_iff]
    exact h
  refine ⟨hkeys, ?_⟩
  rcases t with ⟨ft, cb⟩
  cases cb with
  | seqModel q =>
    simp only [fire]
    split <;> simp
  | seqSpot q =>
    simp only [fire]
    split <;> simp
  | mmShow q =>
    by_cases hq : q = p
    · subst hq
      rw [fire_mmShow_none h]
    · rcases hl : lookupModel w.models q with - | f
      · rw [fire_mmShow_none hl]
      · rw [fire_mmShow_some hl]
        simp [List.count_cons, hq]
  | testSpot q =>
    simp only [fire]
    simp

lemma foldl_fire_absent_no_reveal {p : String} (L : List Timer) :
    ∀ {w : World}, lookupModel w.models p = none →
    lookupModel (L.foldl fire w).models p = none ∧
    (L.foldl fire w).log.count (Cb.mmShow p) = w.log.count (Cb.mmShow p) := by
  induction L with
  | nil =>
    intro w h
    exact ⟨h, rfl⟩
  | cons t rest ih =>
    intro w h
    obtain ⟨h1, h2⟩ := fire_absent_no_reveal t h
    obtain ⟨i1, i2⟩ := ih h1
    exact ⟨i1, i2.trans h2⟩

/-- Time advancement can neither materialize a registry entry nor log a
reveal of an absent one. -/
lemma advanceTo_absent {w : World} {p : String} (t : Nat)
    (h : lookupModel w.models p = none) :
    lookupModel (advanceTo t w).models p = none ∧
    (advanceTo t w).log.count (Cb.mmShow p) = w.log.count (Cb.mmShow p) := by
  unfold advanceTo
  split
  · exact ⟨h, rfl⟩
  · exact foldl_fire_absent_no_reveal _ h

/-- The registry state right after a successful fetch/decode inside
`loadModelP1` (before the optional delayed-visibility scheduling). -/
def loadedWorld (clips : String → Nat) (path : String) (opts : LoadOpts) (w : World) :
    World :=
  { w with
      fetchCount := w.fetchCount + 1,
      models := insertModel w.models path
        { objId := w.fetchCount + 1, visible := opts.visible, delay := opts.delay,
          optVisible := opts.visible,
          acts := List.replicate (clips path) { paused := true, time := 0 } } }

lemma loadModelP1_fail_eq (clips : String → Nat) (fail : List String) (path : String)
    (opts : LoadOpts) (w : World) (hf : path ∈ fail) :
    loadModelP1 clips fail path opts w = .error path := by
  unfold loadModelP1
  rw [if_pos hf]

lemma loadModelP1_ok_eq (clips : String → Nat) (fail : List String) (path : String)
    (opts : LoadOpts) (w : World) (hf : path ∉ fail)
    (hsf : supportedFormat path = true) :
    loadModelP1 clips fail path opts w =
      .ok (if 0 < opts.delay ∧ opts.visible = false
           then showModelP1 path opts.delay (loadedWorld clips path opts w)
           else loadedWorld clips path opts w) := by
  unfold loadModelP1
  rw [if_neg (by simpa using hf), if_neg (by simp [hsf])]
  rfl

lemma showModelP1_models (path : String) (d : Nat) (w : World) :
    (showModelP1 path d w).models = w.models := by
  unfold showModelP1
  rcases lookupModel w.models path with - | e <;> rfl

lemma showModelP1_now (path : String) (d : Nat) (w : World) :
    (showModelP1 path d w).now = w.now := by
  unfold showModelP1
  rcases lookupModel w.models path with - | e <;> rfl

lemma showModelP1_log (path : String) (d : Nat) (w : World) :
    (showModelP1 path d w).log = w.log := by
  unfold showModelP1
  rcases lookupModel w.models path with - | e <;> rfl

lemma showModelP1_errs (path : String) (d : Nat) (w : World) :
    (showModelP1 path d w).errs = w.errs := by
  unfold showModelP1
  rcases lookupModel w.models path with - | e <;> rfl

lemma showModelP1_timers_mono {w : World} {tm : Timer} (path : String) (d : Nat)
    (h : tm ∈ w.timers) : tm ∈ (showModelP1 path d w).timers := by
  unfold showModelP1
  rcases lookupModel w.models path with - | e
  · exact h
  · exact List.mem_append_left _ h

lemma loadTestStep_now (clips : String → Nat) (fail : List String) (w : World)
    (c : Config) : (loadTestStep clips fail w c).now = w.now := by
  unfold loadTestStep
  split
  · rfl
  · by_cases hf : c.path ∈ fail
    · rw [loadModelP1_fail_eq clips fail c.path _ w hf]
    · by_cases hsf : supportedFormat c.path = true
      · rw [loadModelP1_ok_eq clips fail c.path _ w hf hsf]
        dsimp only
        split <;> split <;> simp [showModelP1_now, loadedWorld]
      · rw [show loadModelP1 clips fail c.path
              { visible := c.visible, delay := c.delay } w = .error c.path by
            unfold loadModelP1
            rw [if_neg (by simpa using hf), if_pos (by simpa using hsf)]]

lemma loadTestStep_log (clips : String → Nat) (fail : List String) (w : World)
    (c : Config) : (loadTestStep clips fail w c).log = w.log := by
  unfold loadTestStep
  split
  · rfl
  · by_cases hf : c.path ∈ fail
    · rw [loadModelP1_fail_eq clips fail c.path _ w hf]
    · by_cases hsf : supportedFormat c.path = true
      · rw [loadModelP1_ok_eq clips fail c.path _ w hf hsf]
        dsimp only
        split <;> split <;> simp [showModelP1_log, loadedWorld]
      · rw [show loadModelP1 clips fail c.path
              { visible := c.visible, delay := c.delay } w = .error c.path by
            unfold loadModelP1
            rw [if_neg (by simpa using hf), if_pos (by simpa using hsf)]]

lemma loadTestStep_errs_mono {z : String} (clips : String → Nat) (fail : List String)
    (w : World) (c : Config) (h : z ∈ w.errs) : z ∈ (loadTestStep clips fail w c).errs := by
  unfold loadTestStep
  split
  · exact h
  · by_cases hf : c.path ∈ fail
    · rw [loadModelP1_fail_eq clips fail c.path _ w hf]
      exact List.mem_append_left _ h
    · by_cases hsf : supportedFormat c.path = true
      · rw [loadModelP1_ok_eq clips fail c.path _ w hf hsf]
        dsimp only
        split <;> split <;> simpa [showModelP1_errs, loadedWorld] using h
      · rw [show loadModelP1 clips fail c.path
              { visible := c.visible, delay := c.delay } w = .error c.path by
            unfold loadModelP1
            rw [if_neg (by simpa using hf), if_pos (by simpa using hsf)]]
        exact List.mem_append_left _ h

lemma loadTestStep_timers_mono {tm : Timer} (clips : String → Nat) (fail : List String)
    (w : World) (c : Config) (h : tm ∈ w.timers) :
    tm ∈ (loadTestStep clips fail w c).timers := by
  unfold loadTestStep
  split
  · exact h
  · by_cases hf : c.path ∈ fail
    · rw [loadModelP1_fail_eq clips fail c.path _ w hf]
      exact h
    · by_cases hsf : supportedFormat c.path = true
      · rw [loadModelP1_ok_eq clips fail c.path _ w hf hsf]
        dsimp only
        split <;> split
        · exact showModelP1_timers_mono _ _ h
        · exact h
        · exact showModelP1_timers_mono _ _ h
        · exact h
      · rw [show loadModelP1 clips fail c.path
              { visible := c.visible, delay := c.delay } w = .error c.path by
            unfold loadModelP1
            rw [if_neg (by simpa using hf), if_pos (by simpa using hsf)]]
        exact h

lemma loadTestStep_fail_err (clips : String → Nat) (fail : List String) (w : World)
    (c : Config) (hen : c.enabled = true) (hf : c.path ∈ fail) :
    c.path ∈ (loadTestStep clips fail w c).errs ∧
    (loadTestStep clips fail w c).models = w.models ∧
    (loadTestStep clips fail w c).timers = w.timers := by
  unfold loadTestStep
  rw [if_neg (by simp [hen])]
  rw [loadModelP1_fail_eq clips fail c.path _ w hf]
  exact ⟨List.mem_append_right _ (by simp), rfl, rfl⟩

lemma loadTestStep_lookup_ne (clips : String → Nat) (fail : List String) (w : World)
    (c : Config) {p : String} (hne : p ≠ c.path) :
    lookupModel (loadTestStep clips fail w c).models p = lookupModel w.models p := by
  unfold loadTestStep
  split
  · rfl
  · by_cases hf : c.path ∈ fail
    · rw [loadModelP1_fail_eq clips fail c.path _ w hf]
    · by_cases hsf : supportedFormat c.path = true
      · rw [loadModelP1_ok_eq clips fail c.path _ w hf hsf]
        dsimp only
        split <;> split <;>
          simp [showModelP1_models, loadedWorld, lookupModel_insertModel_ne _ _ hne]
      · rw [show loadModelP1 clips fail c.path
              { visible := c.visible, delay := c.delay } w = .error c.path by
            unfold loadModelP1
            rw [if_neg (by simpa using hf), if_pos (by simpa using hsf)]]

/-- The registry entry produced by a successful `loadModel` call when the
decode counter stood at `n`. -/
def loadedEntry (clips : String → Nat) (c : Config) (n : Nat) : MEntry :=
  { objId := n + 1, visible := c.visible, delay := c.delay, optVisible := c.visible,
    acts := List.replicate (clips c.path) { paused := true, time := 0 } }

lemma loadTestStep_ok (clips : String → Nat) (fail : List String) (w : World)
    (c : Config) (hen : c.enabled = true) (hf : c.path ∉ fail)
    (hsf : supportedFormat c.path = true) :
    lookupModel (loadTestStep clips fail w c).models c.path =
      some (loadedEntry clips c w.fetchCount) ∧
    ((0 < c.delay ∧ c.visible = false) →
      Timer.mk (w.now + c.delay) (Cb.mmShow c.path) ∈
        (loadTestStep clips fail w c).timers) := by
  unfold loadTestStep
  rw [if_neg (by simp [hen]), loadModelP1_ok_eq clips fail c.path _ w hf hsf]
  dsimp only
  constructor
  · split <;> split <;>
      simp [showModelP1_models, loadedWorld, loadedEntry, lookupModel_insertModel_self]
  · intro hD
    have hlook : lookupModel
        (loadedWorld clips c.path { visible := c.visible, delay := c.delay } w).models
        c.path = some (loadedEntry clips c w.fetchCount) :=
      lookupModel_insertModel_self w.models c.path _
    rw [if_pos hD, showModelP1_of_lookup hlook]
    split <;> simp [loadedWorld]

lemma foldl_loadTestStep_now (clips : String → Nat) (fail : List String)
    (cfgs : List Config) : ∀ (w : World),
    (cfgs.foldl (loadTestStep clips fail) w).now = w.now := by
  induction cfgs with
  | nil => intro w; rfl
  | cons c rest ih =>
    intro w
    rw [List.foldl_cons, ih, loadTestStep_now]

lemma foldl_loadTestStep_log (clips : String → Nat) (fail : List String)
    (cfgs : List Config) : ∀ (w : World),
    (cfgs.foldl (loadTestStep clips fail) w).log = w.log := by
  induction cfgs with
  | nil => intro w; rfl
  | cons c rest ih =>
    intro w
    rw [List.foldl_cons, ih, loadTestStep_log]

lemma foldl_loadTestStep_errs_mono {z : String} (clips : String → Nat)
    (fail : List String) (cfgs : List Config) : ∀ {w : World}, z ∈ w.errs →
    z ∈ (cfgs.foldl (loadTestStep clips fail) w).errs := by
  induction cfgs with
  | nil => intro w h; exact h
  | cons c rest ih =>
    intro w h
    exact ih (loadTestStep_errs_mono clips fail w c h)

lemma foldl_loadTestStep_timers_mono {tm : Timer} (clips : String → Nat)
    (fail : List String) (cfgs : List Config) : ∀ {w : World}, tm ∈ w.timers →
    tm ∈ (cfgs.foldl (loadTestStep clips fail) w).timers := by
  induction cfgs with
  | nil => intro w h; exact h
  | cons c rest ih =>
    intro w h
    exact ih (loadTestStep_timers_mono clips fail w c h)

lemma foldl_loadTestStep_lookup_ne {p : String} (clips : String → Nat)
    (fail : List String) (cfgs : List Config) (hne : ∀ c ∈ cfgs, p ≠ c.path) :
    ∀ (w : World),
    lookupModel (cfgs.foldl (loadTestStep clips fail) w).models p =
      lookupModel w.models p := by
  induction cfgs with
  | nil => intro w; rfl
  | cons c rest ih =>
    intro w
    rw [List.foldl_cons,
      ih (fun d hd => hne d (List.mem_cons_of_mem c hd)) (loadTestStep clips fail w c),
      loadTestStep_lookup_ne clips fail w c (hne c (List.mem_cons_self c rest))]

lemma foldl_loadTestStep_fail (clips : String → Nat) (fail : List String)
    {Z : Config} (cfgs : List Config) (hnd : (cfgs.map Config.path).Nodup)
    (hZ : Z ∈ cfgs) (hZe : Z.enabled = true) (hZf : Z.path ∈ fail) :
    ∀ (w : World),
    Z.path ∈ (cfgs.foldl (loadTestStep clips fail) w).errs ∧
    lookupModel (cfgs.foldl (loadTestStep clips fail) w).models Z.path =
      lookupModel w.models Z.path := by
  induction cfgs with
  | nil => exact absurd hZ (List.not_mem_nil Z)
  | cons c rest ih =>
    intro w
    rw [List.map_cons, List.nodup_cons] at hnd
    rcases List.mem_cons.mp hZ with hh | hh
    · subst hh
      obtain ⟨he, hm, ht⟩ := loadTestStep_fail_err clips fail w Z hZe hZf
      rw [List.foldl_cons]
      refine ⟨foldl_loadTestStep_errs_mono clips fail rest he, ?_⟩
      rw [foldl_loadTestStep_lookup_ne clips fail rest ?hne _, hm]
      intro d hd hc
      exact hnd.1 (hc ▸ List.mem_map_of_mem Config.path hd)
    · have hne : Z.path ≠ c.path := by
        intro hc
        exact hnd.1 (hc ▸ List.mem_map_of_mem Config.path hh)
      obtain ⟨i1, i2⟩ := ih hnd.2 hh (loadTestStep clips fail w c)
      rw [List.foldl_cons]
      exact ⟨i1, i2.trans (loadTestStep_lookup_ne clips fail w c hne)⟩

lemma foldl_loadTestStep_ok (clips : String → Nat) (fail : List String)
    {c : Config} (cfgs : List Config) (hnd : (cfgs.map Config.path).Nodup)
    (hc : c ∈ cfgs) (hen : c.enabled = true) (hf : c.path ∉ fail)
    (hsf : supportedFormat c.path = true) :
    ∀ (w : World),
    (∃ n, lookupModel (cfgs.foldl (loadTestStep clips fail) w).models c.path =
      some (loadedEntry clips c n)) ∧
    ((0 < c.delay ∧ c.visible = false) →
      Timer.mk (w.now + c.delay) (Cb.mmShow c.path) ∈
        (cfgs.foldl (loadTestStep clips fail) w).timers) := by
  induction cfgs with
  | nil => exact absurd hc (List.not_mem_nil c)
  | cons d rest ih =>
    intro w
    rw [List.map_cons, List.nodup_cons] at hnd
    rcases List.mem_cons.mp hc with hh | hh
    · subst hh
      obtain ⟨hl, ht⟩ := loadTestStep_ok clips fail w c hen hf hsf
      rw [List.foldl_cons]
      constructor
      · refine ⟨w.fetchCount, ?_⟩
        rw [foldl_loadTestStep_lookup_ne clips fail rest ?hne _, hl]
        intro d hd hcc
        exact hnd.1 (hcc ▸ List.mem_map_of_mem Config.path hd)
      · intro hD
        exact foldl_loadTestStep_timers_mono clips fail rest (ht hD)
    · have hne : c.path ≠ d.path := by
        intro hcc
        exact hnd.1 (hcc ▸ List.mem_map_of_mem Config.path hh)
      obtain ⟨i1, i2⟩ := ih hnd.2 hh (loadTestStep clips fail w d)
      rw [List.foldl_cons]
      refine ⟨i1, fun hD => ?_⟩
      have := i2 hD
      rwa [loadTestStep_now] at this

lemma advanceTo_reveals_mm {w : World} {p : String} {T d : Nat}
    (hnow : w.now = 0) (hsome : (lookupModel w.models p).isSome)
    (htm : Timer.mk d (Cb.mmShow p) ∈ w.timers) (hdT : d ≤ T) :
    revealedIn (advanceTo T w) p := by
  unfold advanceTo
  rw [if_neg (by omega)]
  refine foldl_fire_reveals_mm _ _ hsome ⟨d, ?_⟩
  unfold dueTimers
  refine (List.perm_insertionSort _ _).mem_iff.mpr ?_
  exact List.mem_filter.mpr ⟨htm, by simpa using hdT⟩

/-- C7: in `loadTestModels` (part_001 lines 682-777), a single failing asset
load for entry `Z` is caught at that entry: a `displayErrorMessage` plane
carrying `Z.path` is added, no registry entry for `Z` is ever created, `Z`
is never revealed at any later time, and every other enabled, supported,
non-failing entry of the configuration list still loads hidden, keeps its
own reveal timeout at exactly its configured delay, and is visible and
playing once the clock passes that delay — the failure neither aborts nor
delays the rest of the sequence. -/
theorem loadTest_single_failure_isolated (clips : String → Nat)
    (fail : List String) (cfgs : List Config) (Z : Config) (w : World)
    (hnd : (cfgs.map Config.path).Nodup)
    (hw : w = loadTestModels clips fail cfgs)
    (hZ : Z ∈ cfgs) (hZe : Z.enabled = true) (hZf : Z.path ∈ fail) :
    Z.path ∈ w.errs ∧
    lookupModel w.models Z.path = none ∧
    (∀ t, lookupModel (advanceTo t w).models Z.path = none ∧
      (advanceTo t w).log.count (Cb.mmShow Z.path) = 0) ∧
    (∀ c ∈ cfgs, c.enabled = true → c.path ∉ fail →
      supportedFormat c.path = true → 0 < c.delay → c.visible = false →
      (∃ n, lookupModel w.models c.path = some (loadedEntry clips c n)) ∧
      Timer.mk c.delay (Cb.mmShow c.path) ∈ w.timers ∧
      ∀ T, c.delay ≤ T → revealedIn (advanceTo T w) c.path) := by
  subst hw
  have hmodels : (loadTestModels clips fail cfgs).models =
      (cfgs.foldl (loadTestStep clips fail) {}).models := rfl
  have hlog : (loadTestModels clips fail cfgs).log = [] := by
    show (cfgs.foldl (loadTestStep clips fail) {}).log = []
    rw [foldl_loadTestStep_log]
  have hnow : (loadTestModels clips fail cfgs).now = 0 := by
    show (cfgs.foldl (loadTestStep clips fail) {}).now = 0
    rw [foldl_loadTestStep_now]
  obtain ⟨he, hlk⟩ := foldl_loadTestStep_fail clips fail cfgs hnd hZ hZe hZf {}
  have hlkz : lookupModel (loadTestModels clips fail cfgs).models Z.path = none := by
    rw [hmodels, hlk]
    rfl
  refine ⟨he, hlkz, ?_, ?_⟩
  · intro t
    obtain ⟨h1, h2⟩ := advanceTo_absent t hlkz
    exact ⟨h1, by rw [h2, hlog]; rfl⟩
  · intro c hc hen hf hsf hd hv
    obtain ⟨hl, ht⟩ := foldl_loadTestStep_ok clips fail cfgs hnd hc hen hf hsf {}
    have htm : Timer.mk c.delay (Cb.mmShow c.path) ∈
        (loadTestModels clips fail cfgs).timers := by
      have hin := ht ⟨hd, hv⟩
      rw [show ({} : World).now = 0 from rfl, Nat.zero_add] at hin
      exact List.mem_append_left _ hin
    refine ⟨?_, htm, ?_⟩
    · obtain ⟨n, hn⟩ := hl
      exact ⟨n, by rw [hmodels, hn]⟩
    · intro T hT
      refine advanceTo_reveals_mm hnow ?_ htm hT
      obtain ⟨n, hn⟩ := hl
      rw [hmodels, hn]
      rfl

def clipsW7 : String → Nat := fun _ => 1

def failW7 : List String := ["z.fbx"]

def cfgA7 : Config := { path := "a.fbx", delay := 100, visible := false, enabled := true }

def cfgZ7 : Config := { path := "z.fbx", delay := 200, visible := false, enabled := true }

def cfgB7 : Config := { path := "b.fbx", delay := 300, visible := false, enabled := true }

def cfgsW7 : List Config := [cfgA7, cfgZ7, cfgB7]

def wW7 : World := loadTestModels clipsW7 failW7 cfgsW7

theorem loadTest_single_failure_isolated_witness :
    "z.fbx" ∈ wW7.errs ∧
    lookupModel wW7.models "z.fbx" = none ∧
    lookupModel (advanceTo 1000 wW7).models "z.fbx" = none ∧
    (advanceTo 1000 wW7).log.count (Cb.mmShow "z.fbx") = 0 ∧
    Timer.mk 100 (Cb.mmShow "a.fbx") ∈ wW7.timers ∧
    revealedIn (advanceTo 1000 wW7) "a.fbx" ∧
    revealedIn (advanceTo 1000 wW7) "b.fbx" := by
  obtain ⟨h1, h2, h3, h4⟩ := loadTest_single_failure_isolated clipsW7 failW7 cfgsW7
    cfgZ7 wW7 (by decide) rfl (by decide) rfl (by decide)
  obtain ⟨ha1, ha2, ha3⟩ := h4 cfgA7 (by decide) rfl (by decide) (by decide) (by decide) rfl
  obtain ⟨hb1, hb2, hb3⟩ := h4 cfgB7 (by decide) rfl (by decide) (by decide) (by decide) rfl
  exact ⟨h1, h2, (h3 1000).1, (h3 1000).2, ha2, ha3 1000 (by decide), hb3 1000 (by decide)⟩
